import Mathlib

set_option maxHeartbeats 1000000

/-!
Verification of the clangd completer core (`ycmd/completers/clangd/clangd_completer.py`):
a shallow embedding of its framing codec, pending table, deferred responses, reader
loop, diagnostics sink and session lifecycle, with theorems about the behaviours the
design document ascribes to them.

Modelling conventions:
* Python byte strings and unicode strings are `List Char` (lists of Unicode scalar
  values).  Everything the codec puts on the wire is ASCII (proved below), so one
  list models both the byte view and the character view of the stream.
* `json.dumps(..., separators = (',',':'))` with its default `ensure_ascii = True`
  is modelled by `dumps`; `json.loads` by `loads`.  JSON numbers are restricted to
  integers (the protocol messages this client exchanges carry no floats); `loads`
  is partial (`Option`) and returns `none` on text it cannot represent (floats,
  lone surrogates), exactly the cases `dumps` never emits.
* Exceptions are `Option`/`Except` results; blocking is explicit in result types.
-/

/-- JSON values as Python's `json` module handles them.  Objects are ordered
key/value lists (the code builds requests with `OrderedDict`, and `json.loads`
preserves document order); strings are sequences of Unicode scalar values. -/
inductive Json where
  | null : Json
  | bool (b : Bool) : Json
  | num (n : Int) : Json
  | str (s : List Char) : Json
  | arr (elems : List Json) : Json
  | obj (members : List (List Char × Json)) : Json

/-- Shorthand: the character list of a string literal. -/
def chars (s : String) : List Char := s.data

/-- Decimal digit character, `chr(48 + n)`. -/
def digitChar (n : Nat) : Char := Char.ofNat (48 + n)

/-- Lowercase hex digit character, as Python's `'%04x'` formatting uses. -/
def hexChar (n : Nat) : Char :=
  if n < 10 then digitChar n else Char.ofNat (87 + n)

/-- Four lowercase hex digits of `n % 0x10000`, as in `json`'s `\uXXXX` escapes. -/
def hex4 (n : Nat) : List Char :=
  [hexChar (n / 4096 % 16), hexChar (n / 256 % 16), hexChar (n / 16 % 16),
   hexChar (n % 16)]

/-- One character escaped as `json.dumps` with `ensure_ascii = True` escapes it
(`py_encode_basestring_ascii`): quote and backslash get two-character escapes,
the named control characters get their short escapes, all other characters
outside `0x20 ..= 0x7e` become `\uXXXX` (a surrogate pair for astral planes),
and everything else is emitted literally. -/
def escapeChar (c : Char) : List Char :=
  if c = '"' then ['\\', '"']
  else if c = '\\' then ['\\', '\\']
  else if c = '\x08' then ['\\', 'b']
  else if c = '\x0c' then ['\\', 'f']
  else if c = '\n' then ['\\', 'n']
  else if c = '\r' then ['\\', 'r']
  else if c = '\t' then ['\\', 't']
  else if c.toNat < 0x20 ∨ 0x7f ≤ c.toNat then
    if c.toNat < 0x10000 then
      '\\' :: 'u' :: hex4 c.toNat
    else
      '\\' :: 'u' :: hex4 (0xd800 + (c.toNat - 0x10000) / 0x400) ++
        '\\' :: 'u' :: hex4 (0xdc00 + (c.toNat - 0x10000) % 0x400)
  else [c]

/-- A whole string body escaped character by character. -/
def escapeString (s : List Char) : List Char :=
  (s.map escapeChar).flatten

/-- Decimal digits of `n`, most significant first, no leading zeros
(Python's `str` on a nonnegative `int`). -/
def natChars (n : Nat) : List Char :=
  if n < 10 then [digitChar n]
  else natChars (n / 10) ++ [digitChar (n % 10)]
decreasing_by exact Nat.div_lt_self (by omega) (by omega)

/-- Python's `str` on an `int`: optional minus sign, then decimal digits. -/
def intChars (n : Int) : List Char :=
  if n < 0 then '-' :: natChars n.natAbs else natChars n.natAbs

mutual

/-- `json.dumps(v, separators = (',',':'))`: canonical compact serialization,
ASCII-only thanks to `escapeChar`. -/
def dumps : Json → List Char
  | .null => 'n' :: chars "ull"
  | .bool true => 't' :: chars "rue"
  | .bool false => 'f' :: chars "alse"
  | .num n => intChars n
  | .str s => '"' :: escapeString s ++ ['"']
  | .arr es => '[' :: dumpsElems es ++ [']']
  | .obj ms => '\x7b' :: dumpsMembers ms ++ ['\x7d']

/-- Array elements joined by `,`. -/
def dumpsElems : List Json → List Char
  | [] => []
  | [v] => dumps v
  | v :: vs => dumps v ++ ',' :: dumpsElems vs

/-- Object members `"key":value` joined by `,`. -/
def dumpsMembers : List (List Char × Json) → List Char
  | [] => []
  | [(k, v)] => '"' :: escapeString k ++ '"' :: ':' :: dumps v
  | (k, v) :: ms =>
      ('"' :: escapeString k ++ '"' :: ':' :: dumps v) ++ ',' :: dumpsMembers ms

end

/-- Characters the `json` scanner skips as whitespace. -/
def isJsonWs (c : Char) : Bool :=
  c = ' ' || c = '\t' || c = '\n' || c = '\r'

/-- Skip JSON whitespace. -/
def skipWs (s : List Char) : List Char := s.dropWhile isJsonWs

/-- ASCII decimal digit test. -/
def isDigitChar (c : Char) : Bool := 48 ≤ c.toNat && c.toNat ≤ 57

/-- Numeric value of a digit character. -/
def digitVal (c : Char) : Nat := c.toNat - 48

/-- Value of a most-significant-first digit run. -/
def digitsVal (ds : List Char) : Nat :=
  ds.foldl (fun a c => 10 * a + digitVal c) 0

/-- The integer part of `json`'s `NUMBER_RE`, `-?(0|[1-9]\d*)`: a leading `0`
matches alone, otherwise a maximal nonempty digit run. -/
def parseNatNum : List Char → Option (Nat × List Char)
  | [] => none
  | c :: r =>
    if c = '0' then some (0, r)
    else if isDigitChar c then
      some (digitsVal (c :: r.takeWhile isDigitChar), r.dropWhile isDigitChar)
    else none

/-- An optionally signed integer literal as the scanner matches it. -/
def parseIntNum : List Char → Option (Int × List Char)
  | [] => none
  | c :: r =>
    if c = '-' then (parseNatNum r).map (fun p => (-(p.1 : Int), p.2))
    else (parseNatNum (c :: r)).map (fun p => ((p.1 : Int), p.2))

/-- After an integer literal the scanner must not be looking at a fraction or
exponent: those continue `NUMBER_RE` into a float, which this model does not
represent (`dumps` never emits one), so the parser rejects there. -/
def numBoundary : List Char → Bool
  | [] => true
  | c :: _ => !(c = '.' || c = 'e' || c = 'E')

/-- Value of one hex digit, either case (`int(_, 16)` on well-formed input). -/
def hexVal (c : Char) : Option Nat :=
  if 48 ≤ c.toNat && c.toNat ≤ 57 then some (c.toNat - 48)
  else if 97 ≤ c.toNat && c.toNat ≤ 102 then some (c.toNat - 87)
  else if 65 ≤ c.toNat && c.toNat ≤ 70 then some (c.toNat - 55)
  else none

/-- Value of a four-hex-digit escape payload. -/
def hexVal4 (a b c d : Char) : Option Nat := do
  let x ← hexVal a
  let y ← hexVal b
  let z ← hexVal c
  let w ← hexVal d
  some (((x * 16 + y) * 16 + z) * 16 + w)

/-- Short backslash escapes of `json` strings (the `BACKSLASH` table). -/
def escVal (e : Char) : Option Char :=
  if e = '"' then some '"'
  else if e = '\\' then some '\\'
  else if e = '/' then some '/'
  else if e = 'b' then some '\x08'
  else if e = 'f' then some '\x0c'
  else if e = 'n' then some '\n'
  else if e = 'r' then some '\r'
  else if e = 't' then some '\t'
  else none

/-- Python `dict` assignment for JSON members: original position, last
value. -/
def dictInsert : List (List Char × Json) → List Char → Json →
    List (List Char × Json)
  | [], k, v => [(k, v)]
  | (k0, v0) :: m, k, v =>
    if k0 = k then (k, v) :: m else (k0, v0) :: dictInsert m k v

/-- `dict(pairs)`: as `json`'s `JSONObject` builds its result from the parsed
member pairs — duplicate keys collapse, the last value winning. -/
def dictOfPairs (ps : List (List Char × Json)) : List (List Char × Json) :=
  ps.foldl (fun m kv => dictInsert m kv.1 kv.2) []

/-- `dict` lookup among JSON object members. -/
def lookupMember : List (List Char × Json) → List Char → Option Json
  | [], _ => none
  | (k0, v) :: ms, k => if k0 = k then some v else lookupMember ms k

/-- A Python list comprehension whose body can raise: left to right, the
first failure aborts the whole thing. -/
def mapMOption {α β : Type} (f : α → Option β) : List α → Option (List β)
  | [] => some []
  | a :: as =>
    match f a, mapMOption f as with
    | some b, some bs => some (b :: bs)
    | some _, none => none
    | none, _ => none

mutual

/-- `py_scanstring` in strict mode, after the opening quote: literal characters
up to the closing quote, backslash escapes, unescaped control characters
rejected.  `none` where Python raises; also on a lone surrogate, which a
Python `str` could hold but a list of Unicode scalars cannot (never emitted by
`dumps`). -/
def parseStringBody : List Char → Option (List Char × List Char)
  | [] => none
  | c :: r =>
    if c = '"' then some ([], r)
    else if c = '\\' then parseEscape r
    else if c.toNat < 0x20 then none
    else
      match parseStringBody r with
      | none => none
      | some p => some (c :: p.1, p.2)

/-- The character following a backslash: `u` starts a unicode escape, the
short escapes come from the `BACKSLASH` table, anything else raises. -/
def parseEscape : List Char → Option (List Char × List Char)
  | [] => none
  | e :: r =>
    if e = 'u' then parseUnicodeEscape r
    else
      match escVal e with
      | none => none
      | some d =>
        match parseStringBody r with
        | none => none
        | some p => some (d :: p.1, p.2)

/-- Four hex digits following `\u`.  A high surrogate demands a paired low
surrogate; a bare low surrogate is unrepresentable here (Python would keep
it). -/
def parseUnicodeEscape : List Char → Option (List Char × List Char)
  | h1 :: h2 :: h3 :: h4 :: r =>
    (match hexVal4 h1 h2 h3 h4 with
     | none => none
     | some n =>
       if 0xd800 ≤ n ∧ n < 0xdc00 then parseLowSurrogate n r
       else if 0xdc00 ≤ n ∧ n < 0xe000 then none
       else
         match parseStringBody r with
         | none => none
         | some p => some (Char.ofNat n :: p.1, p.2))
  | _ => none

/-- A `\uXXXX` low surrogate completing the astral-plane scalar begun by the
high surrogate `n`. -/
def parseLowSurrogate (n : Nat) : List Char → Option (List Char × List Char)
  | b1 :: u1 :: g1 :: g2 :: g3 :: g4 :: r =>
    (if b1 = '\\' ∧ u1 = 'u' then
      match hexVal4 g1 g2 g3 g4 with
      | none => none
      | some m =>
        if 0xdc00 ≤ m ∧ m < 0xe000 then
          match parseStringBody r with
          | none => none
          | some p =>
            some (Char.ofNat (0x10000 + (n - 0xd800) * 0x400 + (m - 0xdc00))
              :: p.1, p.2)
        else none
     else none)
  | _ => none

end

/-- Match an exact literal (the tail of `null`, `true`, `false`), returning
the remainder. -/
def expectChars : List Char → List Char → Option (List Char)
  | [], s => some s
  | _ :: _, [] => none
  | k :: ks, c :: r => if c = k then expectChars ks r else none

mutual

/-- One JSON value as `json`'s `scan_once` reads it.  The fuel argument
decreases on every nested scan; `loads` supplies more than any input can
spend, so the fuel never runs out in practice. -/
def parseVal : Nat → List Char → Option (Json × List Char)
  | 0, _ => none
  | _ + 1, [] => none
  | fuel + 1, c :: r =>
    if c = '\x7b' then
      match skipWs r with
      | [] => none
      | d :: r2 =>
        if d = '\x7d' then some (.obj [], r2)
        else
          (parseMembers fuel (d :: r2)).map (fun p => (.obj (dictOfPairs p.1), p.2))
    else if c = '[' then
      match skipWs r with
      | [] => none
      | d :: r2 =>
        if d = ']' then some (.arr [], r2)
        else (parseElems fuel (d :: r2)).map (fun p => (.arr p.1, p.2))
    else if c = '"' then
      (parseStringBody r).map (fun p => (.str p.1, p.2))
    else if c = 'n' then
      match expectChars (chars "ull") r with
      | some r2 => some (.null, r2)
      | none => none
    else if c = 't' then
      match expectChars (chars "rue") r with
      | some r2 => some (.bool true, r2)
      | none => none
    else if c = 'f' then
      match expectChars (chars "alse") r with
      | some r2 => some (.bool false, r2)
      | none => none
    else
      match parseIntNum (c :: r) with
      | none => none
      | some (n, rest) =>
        if numBoundary rest then some (.num n, rest) else none

/-- `JSONArray`'s element loop: a value, then `,` and another element or the
closing bracket, whitespace skipped between tokens. -/
def parseElems : Nat → List Char → Option (List Json × List Char)
  | 0, _ => none
  | fuel + 1, s =>
    match parseVal fuel s with
    | none => none
    | some (v, r) =>
      match skipWs r with
      | [] => none
      | d :: r2 =>
        if d = ']' then some ([v], r2)
        else if d = ',' then
          match parseElems fuel (skipWs r2) with
          | none => none
          | some (vs, r3) => some (v :: vs, r3)
        else none

/-- `JSONObject`'s member loop: a quoted key, `:`, a value, then `,` and
another member or the closing brace, whitespace skipped between tokens. -/
def parseMembers : Nat → List Char →
    Option (List (List Char × Json) × List Char)
  | 0, _ => none
  | _ + 1, [] => none
  | fuel + 1, c :: r =>
    if c = '"' then
      match parseStringBody r with
      | none => none
      | some p =>
        match skipWs p.2 with
        | [] => none
        | d :: r2 =>
          if d = ':' then parseMemberValue fuel p.1 (skipWs r2)
          else none
    else none

/-- One member's value and the delimiter after it: the value, then `}` closes
the object or `,` continues with the next member. -/
def parseMemberValue (fuel : Nat) (k : List Char) (s : List Char) :
    Option (List (List Char × Json) × List Char) :=
  match parseVal fuel s with
  | none => none
  | some q =>
    match skipWs q.2 with
    | [] => none
    | e :: r4 =>
      if e = '\x7d' then some ([(k, q.1)], r4)
      else if e = ',' then
        match parseMembers fuel (skipWs r4) with
        | none => none
        | some t => some ((k, q.1) :: t.1, t.2)
      else none

end

mutual

/-- Fuel sufficient for `parseVal` to scan this value (proved below to be at
most the length of its serialization). -/
def needed : Json → Nat
  | .obj ms => 1 + neededMembers ms
  | .arr es => 1 + neededElems es
  | .str _ => 1
  | .num _ => 1
  | .bool _ => 1
  | .null => 1

/-- Fuel for `parseElems` on this element list. -/
def neededElems : List Json → Nat
  | [] => 0
  | v :: vs => 1 + max (needed v) (neededElems vs)

/-- Fuel for `parseMembers` on this member list. -/
def neededMembers : List (List Char × Json) → Nat
  | [] => 0
  | (_, v) :: ms => 1 + max (needed v) (neededMembers ms)

end

/-- `json.loads`: skip leading whitespace, scan one value, require nothing but
whitespace to remain (else the "Extra data" error). -/
def loads (s : List Char) : Option Json :=
  let t := skipWs s
  match parseVal (t.length + 1) t with
  | none => none
  | some (v, r) => if skipWs r = [] then some v else none

/-- Python `str.strip()` whitespace (the characters that can occur on this
wire). -/
def isPyWs (c : Char) : Bool :=
  c = ' ' || c = '\t' || c = '\n' || c = '\r' || c = '\x0b' || c = '\x0c'

/-- Python `str.strip()`. -/
def pyStrip (s : List Char) : List Char :=
  ((s.dropWhile isPyWs).reverse.dropWhile isPyWs).reverse

/-- `file.readline()`: everything up to and including the first newline, or to
end-of-stream. -/
def readLine : List Char → List Char × List Char
  | [] => ([], [])
  | c :: r =>
    if c = '\n' then ([c], r)
    else
      let p := readLine r
      (c :: p.1, p.2)

/-- `line.split(':', 1)`: `some (before, after)` when a colon occurs; `none`
models the `ValueError` the code's tuple unpacking raises otherwise. -/
def splitColon : List Char → Option (List Char × List Char)
  | [] => none
  | c :: r =>
    if c = ':' then some ([], r)
    else (splitColon r).map (fun p => (c :: p.1, p.2))

/-- Python `dict` assignment `headers[key] = value`: replace or append. -/
def updateAssoc : List (List Char × List Char) → List Char → List Char →
    List (List Char × List Char)
  | [], k, v => [(k, v)]
  | (k0, v0) :: m, k, v =>
    if k0 = k then (k, v) :: m else (k0, v0) :: updateAssoc m k v

/-- Python `dict` lookup. -/
def lookupAssoc : List (List Char × List Char) → List Char →
    Option (List Char)
  | [], _ => none
  | (k0, v0) :: m, k => if k0 = k then some v0 else lookupAssoc m k

/-- No key occurs twice in this member list. -/
def noDupKeys : List (List Char × Json) → Bool
  | [] => true
  | (k, _) :: ms => ms.all (fun kv => kv.1 != k) && noDupKeys ms

mutual

/-- A JSON value that a Python value can denote: every object's member list
has pairwise distinct keys, as a `dict`'s necessarily do. -/
def Json.valid : Json → Bool
  | .null => true
  | .bool _ => true
  | .num _ => true
  | .str _ => true
  | .arr es => validElems es
  | .obj ms => noDupKeys ms && validMembers ms

/-- Validity of every array element. -/
def validElems : List Json → Bool
  | [] => true
  | v :: vs => v.valid && validElems vs

/-- Validity of every member value. -/
def validMembers : List (List Char × Json) → Bool
  | [] => true
  | (_, v) :: ms => v.valid && validMembers ms

end

/-- The header loop of `_Read`: `readline`, `strip`, stop at an empty line,
otherwise split `key: value` at the first colon (no colon means the tuple
unpacking raises: decode failure) and store it under the stripped key.  Fuel
bounds the loop; the stream length plus one always suffices since every
non-final iteration consumes at least one character. -/
def readHeaders : Nat → List (List Char × List Char) → List Char →
    Option (List (List Char × List Char) × List Char)
  | 0, _, _ => none
  | fuel + 1, hs, s =>
    let p := readLine s
    let line := pyStrip p.1
    if line = [] then some (hs, p.2)
    else
      match splitColon line with
      | none => none
      | some (k, v) => readHeaders fuel (updateAssoc hs (pyStrip k) (pyStrip v)) p.2

/-- Nonempty all-digit run, the core of Python `int()`. -/
def pyIntDigits (s : List Char) : Option Nat :=
  if s ≠ [] ∧ s.all isDigitChar then some (digitsVal s) else none

/-- Python `int()` on an already stripped string: optional sign, then digits
(leading zeros allowed). -/
def pyInt : List Char → Option Int
  | [] => none
  | c :: r =>
    if c = '-' then (pyIntDigits r).map (fun n => -(n : Int))
    else if c = '+' then (pyIntDigits r).map (fun n => (n : Int))
    else (pyIntDigits (c :: r)).map (fun n => (n : Int))

/-- `stdout.read(n)`: exactly `n` bytes (fewer only at end-of-stream); a
negative count reads to end-of-stream. -/
def readCount (n : Int) (s : List Char) : List Char × List Char :=
  if n < 0 then (s, []) else (s.take n.toNat, s.drop n.toNat)

/-- `_Read`: parse the header block, require a `Content-Length` header and an
integer value, read that many bytes and parse them as JSON.  `some (message,
remainder)` on success; `none` models the exceptions `_Read` lets escape
(missing header, bad integer, short or malformed body) — the reader loop then
abandons this stream, so no remainder accompanies a failure. -/
def readFrame (s : List Char) : Option (Json × List Char) :=
  match readHeaders (s.length + 1) [] s with
  | none => none
  | some (hs, r) =>
    match lookupAssoc hs (chars "Content-Length") with
    | none => none
    | some v =>
      match pyInt v with
      | none => none
      | some n =>
        let p := readCount n r
        match loads p.1 with
        | none => none
        | some m => some (m, p.2)

/-- `_Write`: `'Content-Length: %d\r\n\r\n%s' % (len(request_json),
request_json)` — note the length is `len` of the serialized *string*, its
character count. -/
def writeFrame (request : Json) : List Char :=
  chars "Content-Length: " ++ natChars (dumps request).length ++
    chars "\r\n\r\n" ++ dumps request

/-- UTF-8 byte count of one scalar value (what `utils.ToBytes` yields per
character). -/
def utf8Size (c : Char) : Nat :=
  if c.toNat < 0x80 then 1
  else if c.toNat < 0x800 then 2
  else if c.toNat < 0x10000 then 3
  else 4

/-- UTF-8 byte count of a string. -/
def utf8Length (s : List Char) : Nat := (s.map utf8Size).sum

/-- The design document's error taxonomy, used to state its properties.  The
code itself raises only bare `RuntimeError`s; each model definition says which
of these kinds its failure stands for. -/
inductive RpcError where
  | timeoutError
  | protocolError
  | serverNotRunning
  | serverError
deriving DecidableEq

/-- `DeferredResponse`: single-assignment waiter.  `message = none` models the
event not set (no `resolve` yet), `some m` the event set with `m` stored —
`resolve` writes both together and nothing ever clears them. -/
structure DeferredResponse where
  message : Option Json

/-- A fresh deferred, as `_SendRequest` creates one per request. -/
def DeferredResponse.init : DeferredResponse := ⟨none⟩

/-- `resolve`: store the message, set the event. -/
def DeferredResponse.resolve (d : DeferredResponse) (m : Json) :
    DeferredResponse :=
  { d with message := some m }

/-- `result`: wait for the event up to the fixed timeout; if it was never set
raise `RuntimeError('Response Timeout')` (the design's `TimeoutError`),
otherwise return the stored message — the whole message, with no look at its
`result` or `error` fields. -/
def DeferredResponse.result (d : DeferredResponse) : Except RpcError Json :=
  match d.message with
  | some m => .ok m
  | none => .error .timeoutError

/-- One interaction with the pending table, abstracted from every code path
that touches `_pending`: `invoke` is `_BuildRequest` taking a fresh
`next(self._sequenceid)` and `_SendRequest` registering a deferred under it;
`timeout` is a caller's `deferred.result()` giving up after the deadline
(`_SendRequest` has no code on that path that touches the table); `reply i`
is the reader loop holding a decoded message whose `id` is `i`. -/
inductive PendingEvent where
  | invoke
  | timeout (id : Nat)
  | reply (id : Nat)

/-- Pending-table state: the sequence counter, the ids currently registered
(the keys of `_pending`), and the log of ids whose waiter got resolved, in
resolution order. -/
structure PendingState where
  nextId : Nat
  pending : List Nat
  resolved : List Nat

/-- The table as `__init__` leaves it. -/
def PendingState.init : PendingState := ⟨0, [], []⟩

/-- One event's effect on the table, from the code: registration stores under
the freshly generated id (`self._pending[sequenceid] = deferred`); a timeout
changes nothing; a reply whose id is registered resolves the deferred and
deletes the entry in one locked region, and is dropped otherwise. -/
def pendingStep (s : PendingState) : PendingEvent → PendingState
  | .invoke =>
    { s with nextId := s.nextId + 1, pending := s.pending ++ [s.nextId] }
  | .timeout _ => s
  | .reply i =>
    if i ∈ s.pending then
      { s with pending := s.pending.erase i, resolved := s.resolved ++ [i] }
    else s

/-- A whole interaction history run from a state. -/
def pendingRun (s : PendingState) : List PendingEvent → PendingState
  | [] => s
  | e :: es => pendingRun (pendingStep s e) es

/-- The diagnostics slot: `_diagnostics` plus the `_has_diagnostics` event. -/
structure DiagSink where
  slot : Option Json
  unread : Bool

/-- The sink as `__init__` leaves it. -/
def DiagSink.init : DiagSink := ⟨none, false⟩

/-- The reader loop's `textDocument/publishDiagnostics` branch: overwrite the
slot with the whole notification message and set the event, under the lock.
Any value the slot held before — read or unread — is discarded. -/
def publishDiagnostics (_ : DiagSink) (message : Json) : DiagSink :=
  ⟨some message, true⟩

/-- What a diagnostics read can come to.  `timedOut` exists so the design
document's bounded-wait property can be stated against this model; the code
never produces it. -/
inductive TakeResult where
  | got (doc : Option Json) (s : DiagSink)
  | blocksForever
  | timedOut

/-- The sink interaction of `GetDiagnosticsForCurrentFile`:
`self._has_diagnostics.wait()` is called with no timeout argument, so with
nothing unread the call never returns; once the event is set the code reads
the slot (whatever Python value it holds) and clears slot and event together
under the lock. -/
def takeDiagnostics (s : DiagSink) : TakeResult :=
  if s.unread then .got s.slot ⟨none, false⟩ else .blocksForever

/-- The reader-side state one `_ReaderLoop` iteration touches. -/
structure ReaderState where
  running : Bool
  input : List Char
  table : PendingState
  sink : DiagSink
  log : List (List Char)

/-- Dispatch of one decoded message (the second half of a `_ReaderLoop`
iteration): a message with an `id` key resolves and removes the matching
pending entry under the lock — an id nobody tracks is dropped; a message
without one has its `method` read, `textDocument/publishDiagnostics`
overwrites the diagnostics sink, any other method is ignored.  `none` models
the exceptions this region would let kill the worker thread (`'id' in
message` on a non-mapping, `message['method']` missing): no `try` protects
it. -/
def dispatchMessage (st : ReaderState) (m : Json) : Option ReaderState :=
  match m with
  | .obj ms =>
    match lookupMember ms (chars "id") with
    | some (.num n) =>
      if 0 ≤ n then
        some { st with table := pendingStep st.table (.reply n.toNat) }
      else some st
    | some _ => some st
    | none =>
      match lookupMember ms (chars "method") with
      | none => none
      | some mth =>
        match mth with
        | .str s =>
          if s = chars "textDocument/publishDiagnostics" then
            some { st with sink := publishDiagnostics st.sink m }
          else some st
        | _ => some st
  | _ => none

/-- The message every reader-loop failure logs
(`_logger.exception( SERVER_NOT_RUNNING_MESSAGE )`). -/
def serverNotRunningMessage : List Char := chars "clangd is not running"

/-- One iteration of `_ReaderLoop`'s `while True:` body.  While the running
gate is clear, `self._server_is_running.wait()` blocks: the iteration changes
nothing.  Otherwise one `_Read` is attempted; any exception from it is caught,
logged, the gate is cleared and the loop `continue`s (the failed stream is
abandoned — a restart replaces the process and its pipes).  `none` (worker
death) can only come out of dispatch, never out of a read failure. -/
def readerIteration (st : ReaderState) : Option ReaderState :=
  if st.running then
    match readFrame st.input with
    | none =>
      some { st with running := false, log := st.log ++ [serverNotRunningMessage] }
    | some (m, rest) => dispatchMessage { st with input := rest } m
  else some st

/-- The session state an RPC-facade call touches: the running gate, the bytes
written so far to the server's stdin, and the pending table. -/
structure SessionState where
  running : Bool
  written : List Char
  table : PendingState

/-- `_BuildRequest`: an `OrderedDict` holding `jsonrpc: '2.0'`, then (for
requests only) a fresh sequence `id`, then `method`, then `params` unless
`None`. -/
def BuildRequest (method : List Char) (params : Option Json)
    (sequenceid : Option Nat) : Json :=
  .obj ((chars "jsonrpc", .str (chars "2.0")) ::
    (match sequenceid with
     | some i => [(chars "id", Json.num i)]
     | none => []) ++
    (chars "method", .str method) ::
    (match params with
     | some p => [(chars "params", p)]
     | none => []))

/-- `_Notify`: build an id-less message and write its frame to the stream.
No code consults the running gate; the `Except` result only exists so the
design document's fail-fast property can be stated — the model always
succeeds, whatever the gate says. -/
def Notify (st : SessionState) (method : List Char) (params : Option Json) :
    Except RpcError SessionState :=
  .ok { st with
          written := st.written ++ writeFrame (BuildRequest method params none) }

/-- The sending half of `_Invoke` (`_BuildRequest` with a fresh sequence id,
then `_SendRequest` registering a deferred under `request['id']` and writing
the frame).  Again no running-gate check anywhere on the path; the `Except`
shape is only there to state the design's fail-fast property against. -/
def SendRequestWrite (st : SessionState) (method : List Char)
    (params : Option Json) : Except RpcError (SessionState × Nat) :=
  let i := st.table.nextId
  let request := BuildRequest method params (some i)
  .ok ({ st with
           table := pendingStep st.table .invoke,
           written := st.written ++ writeFrame request }, i)

/-- `responses.BuildCompletionData` as this completer fills it:
`insertion_text = data['label']`, `kind = data.get('kind', None)`. -/
structure CompletionData where
  insertion_text : Json
  kind : Option Json

/-- `_LSPCompletionItemToCompletionData`; `none` models the exception when the
item is no mapping or lacks `label`. -/
def LSPCompletionItemToCompletionData (data : Json) : Option CompletionData :=
  match data with
  | .obj ms =>
    match lookupMember ms (chars "label") with
    | some l => some ⟨l, lookupMember ms (chars "kind")⟩
    | none => none
  | _ => none

/-- What `ComputeCandidatesInner` does with the value `_Invoke` hands back:
iterate over `res['result']` — the caller digs the `result` field out of the
reply itself — converting each item.  `none` models the exceptions (no
mapping, no `result` key, `result` not a list, an item without `label`). -/
def ComputeCandidatesFromResponse (res : Json) : Option (List CompletionData) :=
  match res with
  | .obj ms =>
    match lookupMember ms (chars "result") with
    | some (.arr items) => mapMOption LSPCompletionItemToCompletionData items
    | _ => none
  | _ => none

/-- `responses.Location(line, column, filename)` as this code fills it: the
raw LSP line value, the converted byte column, the file path. -/
structure Location where
  line : Json
  column : Int
  filepath : List Char

/-- `responses.Range(start, end)`. -/
structure DiagRange where
  rangeStart : Location
  rangeEnd : Location

/-- `responses.Diagnostic(ranges, location, location_extent, text, kind)`. -/
structure Diagnostic where
  ranges : List DiagRange
  location : Location
  location_extent : DiagRange
  text : Json
  kind : List Char

/-- `_LspToYcmdDiagnostic`.  The codepoint-to-byte converter
(`utils.CodepointOffsetToByteOffset`) lives outside this core and is passed
in as a parameter; `none` models the exceptions on a malformed LSP diagnostic
(missing `range`, `start`, `end`, `line`, `character` or `message`).  The
`kind` argument of the `Diagnostic` it builds is the literal `'ERROR'`,
whatever the LSP diagnostic's `severity` says. -/
def LspToYcmdDiagnostic (conv : List Char → Json → Int) (filepath : List Char)
    (line_value : List Char) (lsp : Json) : Option Diagnostic :=
  match lsp with
  | .obj ms =>
    match lookupMember ms (chars "range") with
    | some (.obj rg) =>
      match lookupMember rg (chars "start"), lookupMember rg (chars "end") with
      | some (.obj st), some (.obj en) =>
        match lookupMember st (chars "line"), lookupMember st (chars "character"),
            lookupMember en (chars "line"), lookupMember en (chars "character"),
            lookupMember ms (chars "message") with
        | some sline, some schar, some eline, some echar, some msg =>
          let locStart : Location := ⟨sline, conv line_value schar, filepath⟩
          let locEnd : Location := ⟨eline, conv line_value echar, filepath⟩
          let ext : DiagRange := ⟨locStart, locEnd⟩
          some ⟨[ext], locStart, ext, msg, chars "ERROR"⟩
        | _, _, _, _, _ => none
      | _, _ => none
    | _ => none
  | _ => none

/-- What `GetDiagnosticsForCurrentFile` can come to. -/
inductive GetDiagResult where
  | ok (diags : List Diagnostic) (s : DiagSink)
  | blocksForever
  | failed (s : DiagSink)

/-- `GetDiagnosticsForCurrentFile`: wait — unbounded — on the diagnostics
event, take and clear the slot under the lock, then convert every entry of
the taken message's `params.diagnostics`.  `failed` models an exception after
the slot was already cleared (slot held `None` or a malformed message). -/
def GetDiagnosticsForCurrentFile (conv : List Char → Json → Int)
    (filepath : List Char) (line_value : List Char) (sink : DiagSink) :
    GetDiagResult :=
  match takeDiagnostics sink with
  | .blocksForever => .blocksForever
  | .timedOut => .blocksForever
  | .got doc cleared =>
    match doc with
    | none => .failed cleared
    | some d =>
      match d with
      | .obj ms =>
        match lookupMember ms (chars "params") with
        | some (.obj ps) =>
          match lookupMember ps (chars "diagnostics") with
          | some (.arr ds) =>
            match mapMOption (LspToYcmdDiagnostic conv filepath line_value) ds with
            | some diags => .ok diags cleared
            | none => .failed cleared
          | _ => .failed cleared
        | _ => .failed cleared
      | _ => .failed cleared

/-- The inductive invariant of the pending table: no id registered twice, no
id resolved twice, every id seen came from the sequence counter, and no id is
simultaneously pending and already resolved. -/
def pendingInvariant (s : PendingState) : Prop :=
  s.pending.Nodup ∧ s.resolved.Nodup ∧
    (∀ i ∈ s.pending, i < s.nextId) ∧ (∀ i ∈ s.resolved, i < s.nextId) ∧
    ∀ i, i ∈ s.pending → i ∉ s.resolved

/-- The stream positions at which a serialized value can end: end of input or
one of the delimiters `,`, `]`, `}` — exactly what follows a value inside
`dumps` output.  Guarantees the scanner's maximal-munch number parsing stops
where the serializer stopped. -/
def restOk : List Char → Bool
  | [] => true
  | c :: _ => c = ',' || c = ']' || c = '\x7d'

/-- Everything in the string is ASCII. -/
def allAscii (s : List Char) : Prop := ∀ c ∈ s, c.toNat < 128

/-- A concrete session state whose running gate is clear, for exercising the
facade operations against a dead server. -/
def deadSession : SessionState := ⟨false, [], PendingState.init⟩

/-- A concrete reply carrying an `error` member, as a failing server would
send it. -/
def replyWithError : Json :=
  .obj [(chars "jsonrpc", .str (chars "2.0")), (chars "id", .num 1),
        (chars "error", .str (chars "server failure"))]

/-- A concrete reply carrying a `result` member. -/
def replyWithResult : Json :=
  .obj [(chars "jsonrpc", .str (chars "2.0")), (chars "id", .num 1),
        (chars "result", .num 7)]

/-- A concrete LSP diagnostic carrying a non-error `severity` (2 is
"Warning"), to exercise the kind mapping. -/
def sampleLspDiagnostic : Json :=
  .obj [(chars "range", .obj
          [(chars "start", .obj [(chars "line", .num 1), (chars "character", .num 2)]),
           (chars "end", .obj [(chars "line", .num 1), (chars "character", .num 5)])]),
        (chars "severity", .num 2),
        (chars "message", .str (chars "unused variable"))]

/-- A concrete `textDocument/publishDiagnostics` notification holding
`sampleLspDiagnostic`. -/
def sampleDiagNotification : Json :=
  .obj [(chars "jsonrpc", .str (chars "2.0")),
        (chars "method", .str (chars "textDocument/publishDiagnostics")),
        (chars "params", .obj
          [(chars "uri", .str (chars "test.cpp")),
           (chars "diagnostics", .arr [sampleLspDiagnostic])])]

/-- A concrete protocol message whose body contains non-ASCII text, both a
two-byte character and an astral-plane one. -/
def sampleMessage : Json :=
  .obj [(chars "jsonrpc", .str (chars "2.0")),
        (chars "id", .num 7),
        (chars "method", .str (chars "textDocument/didOpen")),
        (chars "params", .obj
          [(chars "uri", .str (chars "héllo.cpp")),
           (chars "text", .str (chars "int x; // ünïcode 🎉")),
           (chars "version", .num (-3))])]

/-- A concrete input stream whose frame lacks a `Content-Length` header. -/
def badFrameInput : List Char := chars "Foo: 3\r\n\r\nabc"

/-- A concrete reader state looking at `badFrameInput` with the gate set. -/
def badFrameState : ReaderState :=
  ⟨true, badFrameInput, PendingState.init, DiagSink.init, []⟩

/- ------------------------------------------------------------------ -/
/- Theorems.                                                          -/
/- ------------------------------------------------------------------ -/

theorem toNat_ofNat_valid (n : Nat) (h : n.isValidChar) :
    (Char.ofNat n).toNat = n := by
  simp only [Char.ofNat, dif_pos h, Char.ofNatAux, Char.toNat, UInt32.toNat]
  rfl

theorem ofNat_toNat_char (c : Char) : Char.ofNat c.toNat = c := by
  have h2 : (c.toNat).isValidChar := c.valid
  apply Char.ext
  apply UInt32.ext
  have h3 := toNat_ofNat_valid _ h2
  simp only [Char.toNat] at h3 ⊢
  exact h3

/-- C7: two publishes before one take yield exactly the second document; the
first is never observed — the single take returns the second document with
the slot cleared, and a further take finds nothing at all. -/
theorem diagnostics_coalescing (s : DiagSink) (d1 d2 : Json) :
    takeDiagnostics (publishDiagnostics (publishDiagnostics s d1) d2)
        = TakeResult.got (some d2) DiagSink.init
      ∧ takeDiagnostics DiagSink.init = TakeResult.blocksForever :=
  ⟨rfl, rfl⟩

/-- C6 counterexample: with nothing published, the diagnostics take of the
code blocks forever — it does not time out, because
`self._has_diagnostics.wait()` is called with no timeout at all. -/
theorem take_timeout_counterexample :
    takeDiagnostics DiagSink.init = TakeResult.blocksForever ∧
      takeDiagnostics DiagSink.init ≠ TakeResult.timedOut :=
  ⟨rfl, fun h => nomatch h⟩

/-- C6 (amended): the take blocks indefinitely — not bounded by any timeout —
while nothing is unread; once a document is published it returns it and
atomically clears slot and flag. -/
theorem take_blocks_until_publish (s : DiagSink) (h : s.unread = false) :
    takeDiagnostics s = TakeResult.blocksForever ∧
      ∀ d : Json, takeDiagnostics (publishDiagnostics s d)
          = TakeResult.got (some d) ⟨none, false⟩ := by
  constructor
  · simp [takeDiagnostics, h]
  · intro d
    rfl

/-- Witness for `take_blocks_until_publish` at the initial sink. -/
theorem take_blocks_until_publish_witness :
    DiagSink.init.unread = false ∧
      (takeDiagnostics DiagSink.init = TakeResult.blocksForever ∧
        ∀ d : Json, takeDiagnostics (publishDiagnostics DiagSink.init d)
            = TakeResult.got (some d) ⟨none, false⟩) :=
  ⟨rfl, take_blocks_until_publish DiagSink.init rfl⟩

/-- C1: the code keeps the pending entry after a timeout.  Invoking (id 0),
timing out, then receiving the late reply for id 0: the entry is still in the
table after the timeout, and the late reply is *delivered* to the abandoned
waiter (and only then removed) instead of being dropped — the opposite of
what the specification demands. -/
theorem timeout_keeps_pending_entry :
    (pendingRun PendingState.init [.invoke, .timeout 0]).pending = [0] ∧
      (pendingRun PendingState.init [.invoke, .timeout 0, .reply 0]).resolved = [0] ∧
      (pendingRun PendingState.init [.invoke, .timeout 0, .reply 0]).pending = [] := by
  refine ⟨rfl, ?_, ?_⟩ <;> rfl

/-- C5 counterexample: with the running gate clear, `_Notify` and the sending
half of `_Invoke` both proceed — neither fails with `ServerNotRunning`. -/
theorem rpc_while_not_running_counterexample :
    Notify deadSession (chars "textDocument/didOpen") none
        ≠ Except.error RpcError.serverNotRunning ∧
      SendRequestWrite deadSession (chars "textDocument/completion") none
        ≠ Except.error RpcError.serverNotRunning := by
  constructor
  · intro h
    simp only [Notify] at h
    exact Except.noConfusion h
  · intro h
    simp only [SendRequestWrite] at h
    exact Except.noConfusion h

/-- C5 (amended): RPC facade operations issued while the running gate is clear
do not fail fast: no code consults the gate, and both operations write their
frame to the dead stream (the invoke path additionally registers its pending
entry and would then block on the waiter until the timeout). -/
theorem rpc_while_not_running_still_writes (st : SessionState)
    (method : List Char) (params : Option Json) (_h : st.running = false) :
    Notify st method params
        = Except.ok { st with
            written := st.written ++ writeFrame (BuildRequest method params none) } ∧
      SendRequestWrite st method params
        = Except.ok ({ st with
            table := pendingStep st.table .invoke,
            written := st.written ++
              writeFrame (BuildRequest method params (some st.table.nextId)) },
            st.table.nextId) :=
  ⟨rfl, rfl⟩

/-- Witness for `rpc_while_not_running_still_writes` at a concrete dead
session. -/
theorem rpc_while_not_running_still_writes_witness :
    deadSession.running = false ∧
      Notify deadSession (chars "m") none
        = Except.ok { deadSession with
            written := deadSession.written ++
              writeFrame (BuildRequest (chars "m") none none) } :=
  ⟨rfl, (rpc_while_not_running_still_writes deadSession (chars "m") none rfl).1⟩

/-- C4 counterexample: a resolved `_Invoke` hands back the *whole* reply
message.  A reply carrying an `error` member is returned intact — no
`ServerError` is raised — and a reply carrying a `result` member is returned
whole, not projected to its `result` field. -/
theorem invoke_returns_whole_reply_counterexample :
    (DeferredResponse.init.resolve replyWithError).result
        = Except.ok replyWithError ∧
      (DeferredResponse.init.resolve replyWithError).result
        ≠ Except.error RpcError.serverError ∧
      (DeferredResponse.init.resolve replyWithResult).result
        ≠ Except.ok (Json.num 7) ∧
      lookupMember [(chars "jsonrpc", .str (chars "2.0")), (chars "id", .num 1),
          (chars "result", .num 7)] (chars "result")
        = some (Json.num 7) := by
  refine ⟨rfl, ?_, ?_, ?_⟩
  · intro h
    simp only [DeferredResponse.init, DeferredResponse.resolve,
      DeferredResponse.result] at h
    exact Except.noConfusion h
  · intro h
    simp only [DeferredResponse.init, DeferredResponse.resolve,
      DeferredResponse.result, Except.ok.injEq] at h
    simp only [replyWithResult] at h
    exact Json.noConfusion h
  · rfl

/-- C4 (amended): once the reader has resolved the waiter with the correlated
reply, `_Invoke` returns that whole message — whatever fields it carries, and
never an error — and it is the caller (`ComputeCandidatesInner`) that digs
`res['result']` out of it. -/
theorem invoke_delivers_whole_reply (reply : Json) :
    (DeferredResponse.init.resolve reply).result = Except.ok reply ∧
      ((DeferredResponse.init.resolve reply).result).isOk = true :=
  ⟨rfl, rfl⟩

/-- C8: the reader loop never terminates on a decode failure.  In any
iteration where the gate is set but `_Read` fails, the loop logs the failure,
clears the gate and continues; the next iteration (the same total function
again — the worker is still alive) blocks on the cleared gate, changing
nothing, until a restart sets the gate again. -/
theorem reader_loop_survives_decode_failure (st : ReaderState)
    (hrun : st.running = true) (hfail : readFrame st.input = none) :
    readerIteration st
        = some { st with running := false,
                         log := st.log ++ [serverNotRunningMessage] } ∧
      readerIteration { st with running := false,
                                log := st.log ++ [serverNotRunningMessage] }
        = some { st with running := false,
                         log := st.log ++ [serverNotRunningMessage] } := by
  constructor
  · simp [readerIteration, hrun, hfail]
  · simp [readerIteration]

/-- Witness for `reader_loop_survives_decode_failure`: a frame missing its
`Content-Length` header. -/
theorem reader_loop_survives_decode_failure_witness :
    (badFrameState.running = true ∧ readFrame badFrameState.input = none) ∧
      readerIteration badFrameState
        = some { badFrameState with
                   running := false,
                   log := badFrameState.log ++ [serverNotRunningMessage] } :=
  ⟨⟨rfl, rfl⟩, (reader_loop_survives_decode_failure badFrameState rfl rfl).1⟩

theorem pendingStep_invariant (s : PendingState) (e : PendingEvent)
    (h : pendingInvariant s) : pendingInvariant (pendingStep s e) := by
  obtain ⟨h1, h2, h3, h4, h5⟩ := h
  cases e with
  | invoke =>
    simp only [pendingStep, pendingInvariant]
    refine ⟨?_, h2, ?_, ?_, ?_⟩
    · rw [List.nodup_append]
      refine ⟨h1, List.nodup_singleton _, ?_⟩
      intro a ha hb
      simp only [List.mem_singleton] at hb
      subst hb
      exact absurd (h3 _ ha) (lt_irrefl _)
    · intro i hi
      rcases List.mem_append.mp hi with hi2 | hi2
      · exact Nat.lt_succ_of_lt (h3 i hi2)
      · have he : i = s.nextId := List.mem_singleton.mp hi2
        omega
    · intro i hi
      exact Nat.lt_succ_of_lt (h4 i hi)
    · intro i hi hr
      rcases List.mem_append.mp hi with hi2 | hi2
      · exact h5 i hi2 hr
      · have he : i = s.nextId := List.mem_singleton.mp hi2
        subst he
        exact absurd (h4 _ hr) (lt_irrefl _)
  | timeout j => exact ⟨h1, h2, h3, h4, h5⟩
  | reply i =>
    simp only [pendingStep]
    by_cases hm : i ∈ s.pending
    · simp only [if_pos hm, pendingInvariant]
      refine ⟨h1.erase i, ?_, ?_, ?_, ?_⟩
      · rw [List.nodup_append]
        refine ⟨h2, List.nodup_singleton _, ?_⟩
        intro a ha hb
        simp only [List.mem_singleton] at hb
        subst hb
        exact h5 _ hm ha
      · intro j hj
        exact h3 j (List.erase_subset _ _ hj)
      · intro j hj
        rcases List.mem_append.mp hj with hj2 | hj2
        · exact h4 j hj2
        · have he : j = i := List.mem_singleton.mp hj2
          subst he
          exact h3 _ hm
      · intro j hj hr
        have hj2 := (List.Nodup.mem_erase_iff h1).mp hj
        rcases List.mem_append.mp hr with hr2 | hr2
        · exact h5 j hj2.2 hr2
        · exact hj2.1 (List.mem_singleton.mp hr2)
    · simp only [if_neg hm]
      exact ⟨h1, h2, h3, h4, h5⟩

theorem pendingRun_invariant (es : List PendingEvent) (s : PendingState)
    (h : pendingInvariant s) : pendingInvariant (pendingRun s es) := by
  induction es generalizing s with
  | nil => exact h
  | cons e es ih => exact ih _ (pendingStep_invariant s e h)

/-- C9: after any interaction history — registrations, timeouts (which the
code lets leave their entry behind), replies matched or stray — the pending
table holds at most one entry per id and no id has ever been resolved more
than once (the resolution log stays duplicate-free, each resolution having
removed its entry in the same locked step). -/
theorem pending_table_at_most_once (es : List PendingEvent) :
    (pendingRun PendingState.init es).pending.Nodup ∧
      (pendingRun PendingState.init es).resolved.Nodup := by
  have h := pendingRun_invariant es PendingState.init
    ⟨List.nodup_nil, List.nodup_nil,
     fun i hi => absurd hi (List.not_mem_nil i),
     fun i hi => absurd hi (List.not_mem_nil i),
     fun i hi => absurd hi (List.not_mem_nil i)⟩
  exact ⟨h.1, h.2.1⟩

theorem mapMOption_some_mem {α β : Type} (f : α → Option β) :
    ∀ (ds : List α) (out : List β), mapMOption f ds = some out →
      ∀ b ∈ out, ∃ a ∈ ds, f a = some b := by
  intro ds
  induction ds with
  | nil =>
    intro out h b hb
    simp only [mapMOption, Option.some.injEq] at h
    subst h
    simp at hb
  | cons a as ih =>
    intro out h b hb
    simp only [mapMOption] at h
    cases hfa : f a with
    | none => rw [hfa] at h; exact Option.noConfusion h
    | some v =>
      rw [hfa] at h
      cases hrest : mapMOption f as with
      | none => rw [hrest] at h; exact Option.noConfusion h
      | some vs =>
        rw [hrest] at h
        have hout : v :: vs = out := Option.some.inj h
        subst hout
        rcases List.mem_cons.mp hb with hb2 | hb2
        · subst hb2
          exact ⟨a, List.mem_cons_self a as, hfa⟩
        · obtain ⟨x, hx, hfx⟩ := ih vs hrest b hb2
          exact ⟨x, List.mem_cons_of_mem a hx, hfx⟩

theorem lspToYcmd_kind (conv : List Char → Json → Int) (fp lv : List Char)
    (lsp : Json) (d : Diagnostic)
    (h : LspToYcmdDiagnostic conv fp lv lsp = some d) :
    d.kind = chars "ERROR" := by
  unfold LspToYcmdDiagnostic at h
  repeat split at h
  all_goals first
    | exact Option.noConfusion h
    | (cases h; rfl)

/-- C10: every diagnostic that `GetDiagnosticsForCurrentFile` returns was
built with kind `'ERROR'` — the literal passed to `responses.Diagnostic` —
whatever `severity` the server's published LSP diagnostic carried. -/
theorem get_diagnostics_kind_always_error (conv : List Char → Json → Int)
    (fp lv : List Char) (sink : DiagSink) (diags : List Diagnostic)
    (s' : DiagSink)
    (h : GetDiagnosticsForCurrentFile conv fp lv sink = .ok diags s') :
    ∀ d ∈ diags, d.kind = chars "ERROR" := by
  unfold GetDiagnosticsForCurrentFile at h
  repeat
    all_goals first
      | exact GetDiagResult.noConfusion h
      | split at h
  all_goals try exact GetDiagResult.noConfusion h
  next hmap =>
    injection h with hd hs
    subst hd
    intro d hd2
    obtain ⟨x, _, hx⟩ := mapMOption_some_mem _ _ _ hmap d hd2
    exact lspToYcmd_kind conv fp lv x d hx

/-- Witness for `get_diagnostics_kind_always_error`: the sample notification,
whose one diagnostic has `severity` 2 (a warning), still comes out with kind
`'ERROR'`. -/
theorem get_diagnostics_kind_always_error_witness :
    (∃ diags s', GetDiagnosticsForCurrentFile (fun _ _ => (0 : Int))
        (chars "test.cpp") (chars "int x;")
        (publishDiagnostics DiagSink.init sampleDiagNotification)
          = .ok diags s' ∧ ∀ d ∈ diags, d.kind = chars "ERROR") := by
  refine ⟨_, _, rfl, ?_⟩
  exact get_diagnostics_kind_always_error (fun _ _ => (0 : Int))
    (chars "test.cpp") (chars "int x;")
    (publishDiagnostics DiagSink.init sampleDiagNotification) _ _ rfl

/-- Structural induction over the nested `Json` inductive, with member-wise
hypotheses for arrays and objects. -/
theorem Json.inductionOn {P : Json → Prop} (hnull : P .null)
    (hbool : ∀ b, P (.bool b)) (hnum : ∀ n, P (.num n))
    (hstr : ∀ s, P (.str s))
    (harr : ∀ es, (∀ v ∈ es, P v) → P (.arr es))
    (hobj : ∀ ms, (∀ kv ∈ ms, P kv.2) → P (.obj ms)) :
    ∀ v, P v := fun v =>
  match v with
  | .null => hnull
  | .bool b => hbool b
  | .num n => hnum n
  | .str s => hstr s
  | .arr es =>
    harr es (fun x hx =>
      have : sizeOf x < 1 + sizeOf es := by
        have h1 := List.sizeOf_lt_of_mem hx
        omega
      Json.inductionOn hnull hbool hnum hstr harr hobj x)
  | .obj ms =>
    hobj ms (fun kv hkv =>
      have : sizeOf kv.2 < 1 + sizeOf ms := by
        have h1 := List.sizeOf_lt_of_mem hkv
        have h2 : sizeOf kv.2 < sizeOf kv := by
          obtain ⟨a, b⟩ := kv
          simp only [Prod.mk.sizeOf_spec]
          omega
        omega
      Json.inductionOn hnull hbool hnum hstr harr hobj kv.2)
termination_by v => sizeOf v

theorem toNat_digitChar (n : Nat) (h : n < 10) : (digitChar n).toNat = 48 + n := by
  simp only [digitChar]
  exact toNat_ofNat_valid _ (Or.inl (by omega))

theorem natChars_digit (n : Nat) :
    ∀ c ∈ natChars n, 48 ≤ c.toNat ∧ c.toNat ≤ 57 := by
  induction n using Nat.strong_induction_on with
  | _ n ih =>
    intro c hc
    rw [natChars] at hc
    by_cases h : n < 10
    · rw [if_pos h] at hc
      have he : c = digitChar n := List.mem_singleton.mp hc
      subst he
      rw [toNat_digitChar n h]
      omega
    · rw [if_neg h] at hc
      rcases List.mem_append.mp hc with hc2 | hc2
      · exact ih (n / 10) (Nat.div_lt_self (by omega) (by omega)) c hc2
      · have he : c = digitChar (n % 10) := List.mem_singleton.mp hc2
        subst he
        rw [toNat_digitChar _ (Nat.mod_lt _ (by omega))]
        omega

theorem natChars_ne_nil (n : Nat) : natChars n ≠ [] := by
  rw [natChars]
  by_cases h : n < 10
  · rw [if_pos h]
    exact List.cons_ne_nil _ _
  · rw [if_neg h]
    intro hn
    exact List.cons_ne_nil _ _ (List.append_eq_nil.mp hn).2

theorem toNat_hexChar (n : Nat) (h : n < 16) : (hexChar n).toNat < 128 := by
  simp only [hexChar]
  by_cases h10 : n < 10
  · rw [if_pos h10, toNat_digitChar n h10]
    omega
  · rw [if_neg h10]
    have := toNat_ofNat_valid (87 + n) (Or.inl (by omega))
    omega

theorem hex4_ascii (n : Nat) : allAscii (hex4 n) := by
  intro c hc
  simp only [hex4, List.mem_cons, List.mem_singleton, List.not_mem_nil,
    or_false] at hc
  rcases hc with h | h | h | h <;>
    (subst h; exact toNat_hexChar _ (Nat.mod_lt _ (by omega)))

theorem allAscii_append {s t : List Char} (hs : allAscii s) (ht : allAscii t) :
    allAscii (s ++ t) := by
  intro c hc
  rcases List.mem_append.mp hc with h | h
  · exact hs c h
  · exact ht c h

theorem escapeChar_ascii (c : Char) : allAscii (escapeChar c) := by
  intro d hd
  unfold escapeChar at hd
  split_ifs at hd with e1 e2 e3 e4 e5 e6 e7 e8 e9
  all_goals
    simp only [List.mem_cons, List.mem_singleton, List.not_mem_nil,
      or_false, List.mem_append] at hd
  · rcases hd with h | h <;> (subst h; decide)
  · rcases hd with h | h <;> (subst h; decide)
  · rcases hd with h | h <;> (subst h; decide)
  · rcases hd with h | h <;> (subst h; decide)
  · rcases hd with h | h <;> (subst h; decide)
  · rcases hd with h | h <;> (subst h; decide)
  · rcases hd with h | h <;> (subst h; decide)
  · rcases hd with h | h | h
    · subst h; decide
    · subst h; decide
    · exact hex4_ascii _ d h
  · rcases hd with h | h
    · rcases h with h | h | h
      · subst h; decide
      · subst h; decide
      · exact hex4_ascii _ d h
    · rcases h with h | h | h
      · subst h; decide
      · subst h; decide
      · exact hex4_ascii _ d h
  · subst hd
    simp only [not_or, not_lt, not_le] at e8
    omega

theorem escapeString_ascii (s : List Char) : allAscii (escapeString s) := by
  induction s with
  | nil => intro c hc; exact absurd hc (List.not_mem_nil c)
  | cons a as ih =>
    intro c hc
    simp only [escapeString, List.map_cons, List.flatten_cons] at hc
    rcases List.mem_append.mp hc with h | h
    · exact escapeChar_ascii a c h
    · exact ih c h

theorem natChars_ascii (n : Nat) : allAscii (natChars n) := by
  intro c hc
  have := natChars_digit n c hc
  omega

theorem intChars_ascii (n : Int) : allAscii (intChars n) := by
  intro c hc
  unfold intChars at hc
  split_ifs at hc
  · rcases List.mem_cons.mp hc with h | h
    · subst h; decide
    · exact natChars_ascii _ c h
  · exact natChars_ascii _ c hc

theorem dumps_ascii : ∀ v : Json, allAscii (dumps v) := by
  intro v
  induction v using Json.inductionOn with
  | hnull => intro c hc; fin_cases hc <;> decide
  | hbool b => cases b <;> (intro c hc; fin_cases hc <;> decide)
  | hnum n => exact intChars_ascii n
  | hstr s =>
    intro c hc
    rw [dumps] at hc
    rcases List.mem_cons.mp hc with h | h
    · subst h; decide
    · rcases List.mem_append.mp h with h2 | h2
      · exact escapeString_ascii s c h2
      · have he : c = '"' := List.mem_singleton.mp h2
        subst he; decide
  | harr es ih =>
    intro c hc
    rw [dumps] at hc
    rcases List.mem_cons.mp hc with h | h
    · subst h; decide
    · rcases List.mem_append.mp h with h2 | h2
      · clear hc h
        induction es with
        | nil => exact absurd h2 (List.not_mem_nil c)
        | cons x xs ihx =>
          cases xs with
          | nil =>
            rw [dumpsElems] at h2
            exact ih x (List.mem_singleton.mpr rfl) c h2
          | cons y ys =>
            rw [dumpsElems] at h2
            · rcases List.mem_append.mp h2 with h3 | h3
              · exact ih x (List.mem_cons_self _ _) c h3
              · rcases List.mem_cons.mp h3 with h4 | h4
                · subst h4; decide
                · exact ihx (fun v hv => ih v (List.mem_cons_of_mem _ hv)) h4
            · nofun
      · have he : c = ']' := List.mem_singleton.mp h2
        subst he; decide
  | hobj ms ih =>
    intro c hc
    rw [dumps] at hc
    rcases List.mem_cons.mp hc with h | h
    · subst h; decide
    · rcases List.mem_append.mp h with h2 | h2
      · clear hc h
        induction ms with
        | nil => exact absurd h2 (List.not_mem_nil c)
        | cons kv kvs ihx =>
          obtain ⟨k, v⟩ := kv
          cases kvs with
          | nil =>
            rw [dumpsMembers] at h2
            rcases List.mem_cons.mp h2 with h3 | h3
            · subst h3; decide
            · rcases List.mem_append.mp h3 with h4 | h4
              · exact escapeString_ascii k c h4
              · rcases List.mem_cons.mp h4 with h5 | h5
                · subst h5; decide
                · rcases List.mem_cons.mp h5 with h6 | h6
                  · subst h6; decide
                  · exact ih (k, v) (List.mem_singleton.mpr rfl) c h6
          | cons kv2 kvs2 =>
            rw [dumpsMembers] at h2
            · rcases List.mem_append.mp h2 with h3 | h3
              · rcases List.mem_cons.mp h3 with h4 | h4
                · subst h4; decide
                · rcases List.mem_append.mp h4 with h5 | h5
                  · exact escapeString_ascii k c h5
                  · rcases List.mem_cons.mp h5 with h6 | h6
                    · subst h6; decide
                    · rcases List.mem_cons.mp h6 with h7 | h7
                      · subst h7; decide
                      · exact ih (k, v) (List.mem_cons_self _ _) c h7
              · rcases List.mem_cons.mp h3 with h4 | h4
                · subst h4; decide
                · exact ihx (fun kv hkv => ih kv (List.mem_cons_of_mem _ hkv)) h4
            · nofun
      · have he : c = '\x7d' := List.mem_singleton.mp h2
        subst he; decide

theorem utf8Length_of_ascii (s : List Char) (h : allAscii s) :
    utf8Length s = s.length := by
  induction s with
  | nil => rfl
  | cons c cs ih =>
    have hc : c.toNat < 128 := h c (List.mem_cons_self _ _)
    have hcs : allAscii cs := fun d hd => h d (List.mem_cons_of_mem _ hd)
    simp only [utf8Length, List.map_cons, List.sum_cons, List.length_cons]
    have h1 : utf8Size c = 1 := by
      unfold utf8Size
      rw [if_pos (by omega)]
    rw [h1]
    have := ih hcs
    simp only [utf8Length] at this
    omega

/-- C3: the frame `_Write` emits is the `Content-Length` header whose value is
the exact UTF-8 byte count of the serialized body (the code computes the
*character* count, but the `ensure_ascii` serialization makes every body
pure ASCII, so the two counts coincide), the `\r\n\r\n` separator, then the
body. -/
theorem content_length_is_utf8_byte_count (m : Json) :
    writeFrame m = chars "Content-Length: " ++ natChars (utf8Length (dumps m))
      ++ chars "\r\n\r\n" ++ dumps m := by
  unfold writeFrame
  rw [utf8Length_of_ascii (dumps m) (dumps_ascii m)]

theorem char_ne_of_toNat_ne {c d : Char} (h : c.toNat ≠ d.toNat) : c ≠ d :=
  fun he => h (he ▸ rfl)

theorem char_ne_lit {c d : Char} {k : Nat} (hd : d.toNat = k)
    (h : c.toNat ≠ k) : c ≠ d :=
  char_ne_of_toNat_ne (by rw [hd]; exact h)

theorem isJsonWs_false_of_toNat {c : Char}
    (h : c.toNat ≠ 32 ∧ c.toNat ≠ 9 ∧ c.toNat ≠ 10 ∧ c.toNat ≠ 13) :
    isJsonWs c = false := by
  simp only [isJsonWs, Bool.or_eq_false_iff, decide_eq_false_iff_not]
  refine ⟨⟨⟨?_, ?_⟩, ?_⟩, ?_⟩
  · exact char_ne_lit rfl h.1
  · exact char_ne_lit rfl h.2.1
  · exact char_ne_lit rfl h.2.2.1
  · exact char_ne_lit rfl h.2.2.2

theorem skipWs_cons_not {c : Char} {t : List Char} (h : isJsonWs c = false) :
    skipWs (c :: t) = c :: t := by
  simp only [skipWs, List.dropWhile_cons, h]
  simp

theorem digitsVal_append (ds : List Char) (d : Char) :
    digitsVal (ds ++ [d]) = 10 * digitsVal ds + digitVal d := by
  simp only [digitsVal, List.foldl_append, List.foldl_cons, List.foldl_nil]

theorem digitsVal_natChars (n : Nat) : digitsVal (natChars n) = n := by
  induction n using Nat.strong_induction_on with
  | _ n ih =>
    rw [natChars]
    by_cases h : n < 10
    · rw [if_pos h]
      simp only [digitsVal, List.foldl_cons, List.foldl_nil, digitVal]
      rw [toNat_digitChar n h]
      omega
    · rw [if_neg h]
      rw [digitsVal_append, ih (n / 10) (Nat.div_lt_self (by omega) (by omega))]
      simp only [digitVal]
      rw [toNat_digitChar _ (Nat.mod_lt _ (by omega))]
      omega

theorem natChars_head_digit (n : Nat) :
    ∃ c t, natChars n = c :: t ∧ 48 ≤ c.toNat ∧ c.toNat ≤ 57 ∧
      (0 < n → c.toNat ≠ 48) := by
  induction n using Nat.strong_induction_on with
  | _ n ih =>
    rw [natChars]
    by_cases h : n < 10
    · rw [if_pos h]
      refine ⟨digitChar n, [], rfl, ?_⟩
      rw [toNat_digitChar n h]
      omega
    · rw [if_neg h]
      obtain ⟨c, t, hct, hc1, hc2, hc3⟩ :=
        ih (n / 10) (Nat.div_lt_self (by omega) (by omega))
      refine ⟨c, t ++ [digitChar (n % 10)], ?_, hc1, hc2, ?_⟩
      · rw [hct]
        simp
      · intro _
        exact hc3 (by omega)

/-- The head of the rest, if any, fails a predicate. -/
def headNot (p : Char → Bool) : List Char → Prop
  | [] => True
  | c :: _ => p c = false

theorem takeWhile_all_append {p : Char → Bool} {ds rest : List Char}
    (hds : ∀ c ∈ ds, p c = true) (hrest : headNot p rest) :
    (ds ++ rest).takeWhile p = ds ∧ (ds ++ rest).dropWhile p = rest := by
  induction ds with
  | nil =>
    simp only [List.nil_append]
    cases rest with
    | nil => simp
    | cons c t =>
      simp only [headNot] at hrest
      simp [List.takeWhile_cons, List.dropWhile_cons, hrest]
  | cons a as ih =>
    have ha : p a = true := hds a (List.mem_cons_self _ _)
    have ih2 := ih (fun c hc => hds c (List.mem_cons_of_mem _ hc))
    constructor
    · simp only [List.cons_append, List.takeWhile_cons, ha, if_true, ih2.1]
    · simp only [List.cons_append, List.dropWhile_cons, ha, if_true, ih2.2]

theorem parseNatNum_natChars (n : Nat) (rest : List Char)
    (hrest : headNot isDigitChar rest) :
    parseNatNum (natChars n ++ rest) = some (n, rest) := by
  by_cases h0 : n = 0
  · subst h0
    have h00 : natChars 0 = ['0'] := by
      rw [natChars]
      norm_num
      rfl
    rw [h00]
    simp only [List.cons_append, List.nil_append]
    rw [parseNatNum, if_pos rfl]
  · obtain ⟨c, t, hct, hc1, hc2, hc3⟩ := natChars_head_digit n
    have hcz := hc3 (by omega)
    have hdigits := natChars_digit n
    rw [hct]
    rw [hct] at hdigits
    simp only [List.cons_append]
    rw [parseNatNum]
    rw [if_neg (char_ne_lit rfl hcz)]
    rw [if_pos (by
      simp only [isDigitChar, Bool.and_eq_true, decide_eq_true_eq]
      omega)]
    have htw := @takeWhile_all_append isDigitChar t rest
      (fun d hd => by
        have hdig := hdigits d (List.mem_cons_of_mem _ hd)
        simp only [isDigitChar, Bool.and_eq_true, decide_eq_true_eq]
        omega)
      hrest
    rw [htw.1, htw.2]
    have hv : digitsVal (c :: t) = n := by
      rw [← hct]
      exact digitsVal_natChars n
    rw [hv]

theorem parseIntNum_intChars (n : Int) (rest : List Char)
    (hrest : headNot isDigitChar rest) :
    parseIntNum (intChars n ++ rest) = some (n, rest) := by
  unfold intChars
  by_cases h : n < 0
  · rw [if_pos h]
    simp only [List.cons_append]
    rw [parseIntNum, if_pos rfl, parseNatNum_natChars _ _ hrest]
    simp only [Option.map_some', Option.some.injEq, Prod.mk.injEq]
    exact ⟨by omega, trivial⟩
  · rw [if_neg h]
    obtain ⟨c, t, hct, hc1, hc2, _⟩ := natChars_head_digit n.natAbs
    rw [hct]
    simp only [List.cons_append]
    rw [parseIntNum]
    rw [if_neg (char_ne_lit (d := '-') (k := 45) rfl (by omega))]
    rw [← List.cons_append, ← hct, parseNatNum_natChars _ _ hrest]
    simp only [Option.map_some', Option.some.injEq, Prod.mk.injEq]
    exact ⟨by omega, trivial⟩

theorem hexVal_hexChar (k : Nat) (h : k < 16) : hexVal (hexChar k) = some k := by
  unfold hexChar
  by_cases h10 : k < 10
  · rw [if_pos h10]
    have ht := toNat_digitChar k h10
    simp only [hexVal, ht, Bool.and_eq_true, decide_eq_true_eq]
    rw [if_pos (by omega)]
    congr 1
    omega
  · rw [if_neg h10]
    have ht := toNat_ofNat_valid (87 + k) (Or.inl (by omega))
    simp only [hexVal, ht, Bool.and_eq_true, decide_eq_true_eq]
    rw [if_neg (by omega), if_pos (by omega)]
    congr 1
    omega

theorem hexVal4_hex4 (n : Nat) (h : n < 65536) :
    hexVal4 (hexChar (n / 4096 % 16)) (hexChar (n / 256 % 16))
      (hexChar (n / 16 % 16)) (hexChar (n % 16)) = some n := by
  unfold hexVal4
  rw [hexVal_hexChar _ (Nat.mod_lt _ (by omega)),
    hexVal_hexChar _ (Nat.mod_lt _ (by omega)),
    hexVal_hexChar _ (Nat.mod_lt _ (by omega)),
    hexVal_hexChar _ (Nat.mod_lt _ (by omega))]
  simp only [Option.bind_eq_bind, Option.some_bind, Option.some.injEq]
  omega

theorem char_valid_nat (c : Char) :
    c.toNat < 55296 ∨ (57343 < c.toNat ∧ c.toNat < 1114112) :=
  c.valid

theorem psb_quote (r : List Char) : parseStringBody ('"' :: r) = some ([], r) := by
  rw [parseStringBody]
  simp

theorem psb_lit (c : Char) (r : List Char) (h1 : ¬c = '"') (h2 : ¬c = '\\')
    (h3 : 0x20 ≤ c.toNat) :
    parseStringBody (c :: r)
      = Option.map (fun p => (c :: p.1, p.2)) (parseStringBody r) := by
  rw [parseStringBody]
  rw [if_neg h1, if_neg h2, if_neg (by omega : ¬c.toNat < 0x20)]
  cases parseStringBody r with
  | none => rfl
  | some p => rfl

theorem psb_shortEsc (e d : Char) (r : List Char) (hne : ¬e = 'u')
    (hv : escVal e = some d) :
    parseStringBody ('\\' :: e :: r)
      = Option.map (fun p => (d :: p.1, p.2)) (parseStringBody r) := by
  rw [parseStringBody]
  rw [if_neg (by decide : ¬ '\\' = '"'), if_pos rfl]
  rw [parseEscape, if_neg hne, hv]
  cases parseStringBody r with
  | none => rfl
  | some p => rfl

theorem psb_u (h1 h2 h3 h4 : Char) (r : List Char) (n : Nat)
    (hv : hexVal4 h1 h2 h3 h4 = some n) (hlow : n < 0xd800 ∨ 0xe000 ≤ n) :
    parseStringBody ('\\' :: 'u' :: h1 :: h2 :: h3 :: h4 :: r)
      = Option.map (fun p => (Char.ofNat n :: p.1, p.2)) (parseStringBody r) := by
  rw [parseStringBody]
  rw [if_neg (by decide : ¬ '\\' = '"'), if_pos rfl]
  rw [parseEscape, if_pos rfl]
  rw [parseUnicodeEscape, hv]
  dsimp only
  rw [if_neg (by omega : ¬(0xd800 ≤ n ∧ n < 0xdc00))]
  rw [if_neg (by omega : ¬(0xdc00 ≤ n ∧ n < 0xe000))]
  cases parseStringBody r with
  | none => rfl
  | some p => rfl

theorem psb_pair (h1 h2 h3 h4 g1 g2 g3 g4 : Char) (r : List Char) (n m : Nat)
    (hv : hexVal4 h1 h2 h3 h4 = some n) (hw : hexVal4 g1 g2 g3 g4 = some m)
    (hn : 0xd800 ≤ n ∧ n < 0xdc00) (hm : 0xdc00 ≤ m ∧ m < 0xe000) :
    parseStringBody
        ('\\' :: 'u' :: h1 :: h2 :: h3 :: h4 :: '\\' :: 'u' :: g1 :: g2 :: g3 :: g4 :: r)
      = Option.map
          (fun p => (Char.ofNat (0x10000 + (n - 0xd800) * 0x400 + (m - 0xdc00)) :: p.1, p.2))
          (parseStringBody r) := by
  rw [parseStringBody]
  rw [if_neg (by decide : ¬ '\\' = '"'), if_pos rfl]
  rw [parseEscape, if_pos rfl]
  rw [parseUnicodeEscape, hv]
  dsimp only
  rw [if_pos hn]
  rw [parseLowSurrogate]
  rw [if_pos (by decide : '\\' = '\\' ∧ 'u' = 'u')]
  rw [hw]
  dsimp only
  rw [if_pos hm]
  cases parseStringBody r with
  | none => rfl
  | some p => rfl

theorem parseStringBody_escape (s : List Char) :
    ∀ rest, parseStringBody (escapeString s ++ '"' :: rest) = some (s, rest) := by
  induction s with
  | nil =>
    intro rest
    simp only [escapeString, List.map_nil, List.flatten_nil, List.nil_append]
    exact psb_quote rest
  | cons c cs ih =>
    intro rest
    have hesc : escapeString (c :: cs) ++ '"' :: rest
        = escapeChar c ++ (escapeString cs ++ '"' :: rest) := by
      simp [escapeString]
    rw [hesc]
    unfold escapeChar
    split_ifs with e1 e2 e3 e4 e5 e6 e7 e8 e9
    · subst e1
      rw [show (['\\', '"'] : List Char) ++ (escapeString cs ++ '"' :: rest)
          = '\\' :: '"' :: (escapeString cs ++ '"' :: rest) from rfl]
      rw [psb_shortEsc '"' '"' _ (by decide) (by decide), ih rest]
      rfl
    · subst e2
      rw [show (['\\', '\\'] : List Char) ++ (escapeString cs ++ '"' :: rest)
          = '\\' :: '\\' :: (escapeString cs ++ '"' :: rest) from rfl]
      rw [psb_shortEsc '\\' '\\' _ (by decide) (by decide), ih rest]
      rfl
    · subst e3
      rw [show (['\\', 'b'] : List Char) ++ (escapeString cs ++ '"' :: rest)
          = '\\' :: 'b' :: (escapeString cs ++ '"' :: rest) from rfl]
      rw [psb_shortEsc 'b' '\x08' _ (by decide) (by decide), ih rest]
      rfl
    · subst e4
      rw [show (['\\', 'f'] : List Char) ++ (escapeString cs ++ '"' :: rest)
          = '\\' :: 'f' :: (escapeString cs ++ '"' :: rest) from rfl]
      rw [psb_shortEsc 'f' '\x0c' _ (by decide) (by decide), ih rest]
      rfl
    · subst e5
      rw [show (['\\', 'n'] : List Char) ++ (escapeString cs ++ '"' :: rest)
          = '\\' :: 'n' :: (escapeString cs ++ '"' :: rest) from rfl]
      rw [psb_shortEsc 'n' '\n' _ (by decide) (by decide), ih rest]
      rfl
    · subst e6
      rw [show (['\\', 'r'] : List Char) ++ (escapeString cs ++ '"' :: rest)
          = '\\' :: 'r' :: (escapeString cs ++ '"' :: rest) from rfl]
      rw [psb_shortEsc 'r' '\r' _ (by decide) (by decide), ih rest]
      rfl
    · subst e7
      rw [show (['\\', 't'] : List Char) ++ (escapeString cs ++ '"' :: rest)
          = '\\' :: 't' :: (escapeString cs ++ '"' :: rest) from rfl]
      rw [psb_shortEsc 't' '\t' _ (by decide) (by decide), ih rest]
      rfl
    · -- basic-plane `\uXXXX`
      have hval := char_valid_nat c
      simp only [hex4, List.cons_append, List.nil_append]
      rw [psb_u _ _ _ _ _ _ (hexVal4_hex4 c.toNat e9) (by omega), ih rest]
      simp only [Option.map_some']
      rw [ofNat_toNat_char]
    · -- astral-plane surrogate pair
      have hval := char_valid_nat c
      simp only [hex4, List.cons_append, List.nil_append, List.append_assoc]
      rw [psb_pair _ _ _ _ _ _ _ _ _ _ _
        (hexVal4_hex4 _ (by omega)) (hexVal4_hex4 _ (by omega))
        (by omega) (by omega), ih rest]
      simp only [Option.map_some']
      have hc : 0x10000 + (0xd800 + (c.toNat - 0x10000) / 0x400 - 0xd800) * 0x400
          + (0xdc00 + (c.toNat - 0x10000) % 0x400 - 0xdc00) = c.toNat := by
        omega
      rw [hc, ofNat_toNat_char]
    · -- plain literal character
      simp only [List.cons_append, List.nil_append]
      rw [psb_lit c _ e1 e2 (by omega), ih rest]
      rfl

theorem expectChars_of_append (kw : List Char) :
    ∀ rest, expectChars kw (kw ++ rest) = some rest := by
  induction kw with
  | nil => intro rest; rfl
  | cons k ks ih =>
    intro rest
    simp only [List.cons_append]
    rw [expectChars, if_pos rfl]
    exact ih rest

theorem intChars_ne_nil (n : Int) : intChars n ≠ [] := by
  unfold intChars
  split_ifs
  · exact List.cons_ne_nil _ _
  · exact natChars_ne_nil _

theorem dumps_ne_nil (v : Json) : dumps v ≠ [] := by
  cases v with
  | null => rw [dumps]; exact List.cons_ne_nil _ _
  | bool b => cases b <;> (rw [dumps]; exact List.cons_ne_nil _ _)
  | num n => rw [dumps]; exact intChars_ne_nil n
  | str s => rw [dumps]; exact List.cons_ne_nil _ _
  | arr es => rw [dumps]; exact List.cons_ne_nil _ _
  | obj ms => rw [dumps]; exact List.cons_ne_nil _ _

theorem dumps_head_ok (v : Json) (c : Char) (t : List Char)
    (h : dumps v = c :: t) :
    isJsonWs c = false ∧ ¬c = ']' ∧ ¬c = '\x7d' := by
  have hget : ∀ k : Nat, c.toNat = k →
      k ≠ 32 ∧ k ≠ 9 ∧ k ≠ 10 ∧ k ≠ 13 ∧ k ≠ 93 ∧ k ≠ 125 →
      isJsonWs c = false ∧ ¬c = ']' ∧ ¬c = '\x7d' := by
    intro k hk hcond
    refine ⟨isJsonWs_false_of_toNat (by omega), ?_, ?_⟩
    · exact char_ne_lit (k := 93) rfl (by omega)
    · exact char_ne_lit (k := 125) rfl (by omega)
  cases v with
  | null =>
    rw [dumps] at h
    have hc : c = 'n' := (List.cons.injEq _ _ _ _ ▸ h).1.symm
    subst hc
    exact hget 110 rfl (by omega)
  | bool b =>
    cases b <;> rw [dumps] at h
    · have hc : c = 'f' := (List.cons.injEq _ _ _ _ ▸ h).1.symm
      subst hc
      exact hget 102 rfl (by omega)
    · have hc : c = 't' := (List.cons.injEq _ _ _ _ ▸ h).1.symm
      subst hc
      exact hget 116 rfl (by omega)
  | num n =>
    rw [dumps] at h
    unfold intChars at h
    split_ifs at h
    · have hc : c = '-' := (List.cons.injEq _ _ _ _ ▸ h).1.symm
      subst hc
      exact hget 45 rfl (by omega)
    · obtain ⟨c2, t2, hct, hc1, hc2, _⟩ := natChars_head_digit n.natAbs
      rw [hct] at h
      have hc : c2 = c := (List.cons.injEq _ _ _ _ ▸ h).1
      subst hc
      exact hget c2.toNat rfl (by omega)
  | str s =>
    rw [dumps] at h
    have hc : c = '"' := (List.cons.injEq _ _ _ _ ▸ h).1.symm
    subst hc
    exact hget 34 rfl (by omega)
  | arr es =>
    rw [dumps] at h
    have hc : c = '[' := (List.cons.injEq _ _ _ _ ▸ h).1.symm
    subst hc
    exact hget 91 rfl (by omega)
  | obj ms =>
    rw [dumps] at h
    have hc : c = '\x7b' := (List.cons.injEq _ _ _ _ ▸ h).1.symm
    subst hc
    exact hget 123 rfl (by omega)

theorem skipWs_dumps (v : Json) (rest : List Char) :
    skipWs (dumps v ++ rest) = dumps v ++ rest := by
  cases hd : dumps v with
  | nil => exact absurd hd (dumps_ne_nil v)
  | cons c t =>
    simp only [List.cons_append]
    exact skipWs_cons_not (dumps_head_ok v c t hd).1

theorem restOk_facts (rest : List Char) (h : restOk rest = true) :
    headNot isDigitChar rest ∧ numBoundary rest = true := by
  cases rest with
  | nil => exact ⟨trivial, rfl⟩
  | cons c t =>
    simp only [restOk, Bool.or_eq_true, decide_eq_true_eq] at h
    constructor
    · simp only [headNot]
      rcases h with (h | h) | h <;> (subst h; decide)
    · rcases h with (h | h) | h <;> (subst h; rw [numBoundary]; decide)

theorem needed_pos (v : Json) : 1 ≤ needed v := by
  cases v <;> rw [needed] <;> omega

theorem neededElems_le (xs : List Json)
    (hmem : ∀ v ∈ xs, needed v ≤ (dumps v).length) :
    neededElems xs ≤ (dumpsElems xs).length + 1 := by
  induction xs with
  | nil => rw [neededElems]; omega
  | cons x xs2 ihx =>
    have h1 := hmem x (List.mem_cons_self _ _)
    have h2 := ihx (fun v hv => hmem v (List.mem_cons_of_mem _ hv))
    cases xs2 with
    | nil =>
      rw [neededElems, neededElems, dumpsElems]
      omega
    | cons y ys =>
      rw [neededElems, dumpsElems]
      · simp only [List.length_append, List.length_cons]
        omega
      · nofun

theorem neededMembers_le (ms : List (List Char × Json))
    (hmem : ∀ kv ∈ ms, needed kv.2 ≤ (dumps kv.2).length) :
    neededMembers ms ≤ (dumpsMembers ms).length + 1 := by
  induction ms with
  | nil => rw [neededMembers]; omega
  | cons kv kvs ihx =>
    obtain ⟨k, v⟩ := kv
    have h1 := hmem (k, v) (List.mem_cons_self _ _)
    dsimp only at h1
    have h2 := ihx (fun kv2 hv => hmem kv2 (List.mem_cons_of_mem _ hv))
    cases kvs with
    | nil =>
      simp only [neededMembers, dumpsMembers, List.length_cons,
        List.length_append]
      omega
    | cons kv2 kvs2 =>
      simp only [neededMembers] at h2 ⊢
      rw [dumpsMembers]
      · simp only [List.length_append, List.length_cons]
        omega
      · nofun

theorem needed_le (v : Json) : needed v ≤ (dumps v).length := by
  induction v using Json.inductionOn with
  | hnull => rw [needed, dumps]; simp
  | hbool b => cases b <;> (rw [needed, dumps]; simp)
  | hnum n =>
    rw [needed, dumps]
    have := List.length_pos.mpr (intChars_ne_nil n)
    omega
  | hstr s => rw [needed, dumps]; simp
  | harr es ih =>
    rw [needed, dumps]
    have hsuff := neededElems_le es ih
    simp only [List.length_cons, List.length_append]
    omega
  | hobj ms ih =>
    rw [needed, dumps]
    have hsuff := neededMembers_le ms ih
    simp only [List.length_cons, List.length_append]
    omega

theorem dictInsert_fresh (acc : List (List Char × Json)) (k : List Char)
    (v : Json) (h : ∀ kv ∈ acc, ¬kv.1 = k) :
    dictInsert acc k v = acc ++ [(k, v)] := by
  induction acc with
  | nil => rfl
  | cons kv0 acc2 ih =>
    obtain ⟨k0, v0⟩ := kv0
    rw [dictInsert]
    rw [if_neg (h (k0, v0) (List.mem_cons_self _ _))]
    rw [ih (fun kv hkv => h kv (List.mem_cons_of_mem _ hkv))]
    rfl

theorem dictOfPairs_foldl (ms : List (List Char × Json)) :
    ∀ acc, noDupKeys ms = true →
      (∀ kv ∈ ms, ∀ kv2 ∈ acc, ¬kv2.1 = kv.1) →
      ms.foldl (fun m kv => dictInsert m kv.1 kv.2) acc = acc ++ ms := by
  induction ms with
  | nil =>
    intro acc _ _
    simp
  | cons kv ms2 ih =>
    intro acc hnd hfresh
    obtain ⟨k, v⟩ := kv
    rw [noDupKeys, Bool.and_eq_true] at hnd
    simp only [List.foldl_cons]
    rw [dictInsert_fresh acc k v
      (fun kv2 hkv2 => hfresh (k, v) (List.mem_cons_self _ _) kv2 hkv2)]
    rw [ih (acc ++ [(k, v)]) hnd.2 ?_]
    · simp
    · intro kv2 hkv2 kv3 hkv3
      rcases List.mem_append.mp hkv3 with h3 | h3
      · exact hfresh kv2 (List.mem_cons_of_mem _ hkv2) kv3 h3
      · have he : kv3 = (k, v) := List.mem_singleton.mp h3
        subst he
        have hall := List.all_eq_true.mp hnd.1 kv2 hkv2
        simp only [bne_iff_ne, ne_eq] at hall
        exact fun he => hall he.symm

theorem dictOfPairs_id (ms : List (List Char × Json))
    (hnd : noDupKeys ms = true) : dictOfPairs ms = ms := by
  unfold dictOfPairs
  rw [dictOfPairs_foldl ms [] hnd (by intro kv _ kv2 h2; exact absurd h2 (List.not_mem_nil kv2))]
  rfl

theorem skipWs_dumpsElems (y : Json) (ys : List Json) (z : List Char) :
    skipWs (dumpsElems (y :: ys) ++ z) = dumpsElems (y :: ys) ++ z := by
  cases ys with
  | nil =>
    rw [dumpsElems]
    exact skipWs_dumps y z
  | cons y2 ys2 =>
    rw [dumpsElems]
    · rw [List.append_assoc]
      rw [skipWs_dumps y (',' :: dumpsElems (y2 :: ys2) ++ z)]
    · nofun

theorem skipWs_dumpsMembers (kv : List Char × Json)
    (kvs : List (List Char × Json)) (z : List Char) :
    skipWs (dumpsMembers (kv :: kvs) ++ z) = dumpsMembers (kv :: kvs) ++ z := by
  obtain ⟨k, v⟩ := kv
  cases kvs with
  | nil =>
    rw [dumpsMembers]
    simp only [List.cons_append]
    exact skipWs_cons_not (by decide)
  | cons kv2 kvs2 =>
    rw [dumpsMembers]
    · simp only [List.cons_append, List.append_assoc]
      exact skipWs_cons_not (by decide)
    · nofun

theorem parseVal_dumps (v : Json) :
    ∀ (fuel : Nat) (rest : List Char), Json.valid v = true →
      needed v ≤ fuel → restOk rest = true →
      parseVal fuel (dumps v ++ rest) = some (v, rest) := by
  induction v using Json.inductionOn with
  | hnull =>
    intro fuel rest _ hfuel hrest
    rw [needed] at hfuel
    cases fuel with
    | zero => omega
    | succ f =>
      rw [dumps]
      simp only [List.cons_append, List.nil_append]
      rw [parseVal]
      rw [if_neg (by decide), if_neg (by decide), if_neg (by decide),
        if_pos rfl]
      rw [expectChars_of_append]
  | hbool b =>
    intro fuel rest _ hfuel hrest
    rw [needed] at hfuel
    cases fuel with
    | zero => omega
    | succ f =>
      cases b
      · rw [dumps]
        simp only [List.cons_append, List.nil_append]
        rw [parseVal]
        rw [if_neg (by decide), if_neg (by decide), if_neg (by decide),
          if_neg (by decide), if_neg (by decide), if_pos rfl]
        rw [expectChars_of_append]
      · rw [dumps]
        simp only [List.cons_append, List.nil_append]
        rw [parseVal]
        rw [if_neg (by decide), if_neg (by decide), if_neg (by decide),
          if_neg (by decide), if_pos rfl]
        rw [expectChars_of_append]
  | hnum n =>
    intro fuel rest _ hfuel hrest
    rw [needed] at hfuel
    obtain ⟨hnd, hnb⟩ := restOk_facts rest hrest
    cases fuel with
    | zero => omega
    | succ f =>
      rw [dumps]
      unfold intChars
      split_ifs with hneg
      · simp only [List.cons_append]
        rw [parseVal]
        rw [if_neg (by decide), if_neg (by decide), if_neg (by decide),
          if_neg (by decide), if_neg (by decide), if_neg (by decide)]
        have hp : parseIntNum ('-' :: (natChars n.natAbs ++ rest))
            = some (n, rest) := by
          have hq := parseIntNum_intChars n rest hnd
          unfold intChars at hq
          rw [if_pos hneg] at hq
          simpa using hq
        rw [hp]
        dsimp only
        rw [if_pos hnb]
      · obtain ⟨c, t, hct, hc1, hc2, _⟩ := natChars_head_digit n.natAbs
        rw [hct]
        simp only [List.cons_append]
        rw [parseVal]
        rw [if_neg (char_ne_lit (d := '\x7b') (k := 123) rfl (by omega)),
          if_neg (char_ne_lit (d := '[') (k := 91) rfl (by omega)),
          if_neg (char_ne_lit (d := '"') (k := 34) rfl (by omega)),
          if_neg (char_ne_lit (d := 'n') (k := 110) rfl (by omega)),
          if_neg (char_ne_lit (d := 't') (k := 116) rfl (by omega)),
          if_neg (char_ne_lit (d := 'f') (k := 102) rfl (by omega))]
        have hp : parseIntNum (c :: (t ++ rest)) = some (n, rest) := by
          have hq := parseIntNum_intChars n rest hnd
          unfold intChars at hq
          rw [if_neg hneg, hct] at hq
          simpa using hq
        rw [hp]
        dsimp only
        rw [if_pos hnb]
  | hstr s =>
    intro fuel rest _ hfuel hrest
    rw [needed] at hfuel
    cases fuel with
    | zero => omega
    | succ f =>
      rw [dumps]
      simp only [List.cons_append, List.append_assoc, List.singleton_append,
        List.nil_append]
      rw [parseVal]
      rw [if_neg (by decide), if_neg (by decide), if_pos rfl]
      rw [parseStringBody_escape s rest]
      rfl
  | harr es ih =>
    intro fuel rest hv hfuel hrest
    rw [needed] at hfuel
    rw [Json.valid] at hv
    cases fuel with
    | zero => omega
    | succ f =>
      rw [dumps]
      simp only [List.cons_append, List.append_assoc, List.singleton_append,
        List.nil_append]
      rw [parseVal]
      rw [if_neg (by decide), if_pos rfl]
      cases es with
      | nil =>
        rw [dumpsElems]
        simp only [List.nil_append]
        rw [skipWs_cons_not (by decide)]
        dsimp only
        rw [if_pos rfl]
      | cons x xs =>
        rw [skipWs_dumpsElems x xs (']' :: rest)]
        have hex : ∃ c t, dumpsElems (x :: xs) = c :: t ∧ ¬c = ']' := by
          cases hd : dumps x with
          | nil => exact absurd hd (dumps_ne_nil x)
          | cons c t =>
            have hok := dumps_head_ok x c t hd
            cases xs with
            | nil => exact ⟨c, t, by rw [dumpsElems, hd], hok.2.1⟩
            | cons y ys =>
              refine ⟨c, t ++ ',' :: dumpsElems (y :: ys), ?_, hok.2.1⟩
              rw [dumpsElems]
              · rw [hd]
                simp
              · nofun
        have hElems : ∀ xs2 : List Json,
            (∀ v ∈ xs2, ∀ (fuel2 : Nat) (rest2 : List Char),
              Json.valid v = true → needed v ≤ fuel2 → restOk rest2 = true →
              parseVal fuel2 (dumps v ++ rest2) = some (v, rest2)) →
            ∀ (g : Nat) (r2 : List Char), validElems xs2 = true →
              neededElems xs2 ≤ g → xs2 ≠ [] →
              parseElems g (dumpsElems xs2 ++ ']' :: r2) = some (xs2, r2) := by
          intro xs2
          induction xs2 with
          | nil =>
            intro _ g r2 _ _ hne
            exact absurd rfl hne
          | cons x2 xs3 ihx =>
            intro hmem g r2 hval hfuel2 _
            rw [neededElems] at hfuel2
            rw [validElems, Bool.and_eq_true] at hval
            cases g with
            | zero => omega
            | succ g2 =>
              rw [parseElems]
              cases xs3 with
              | nil =>
                rw [dumpsElems]
                rw [hmem x2 (List.mem_cons_self _ _) g2 (']' :: r2) hval.1
                  (by rw [neededElems] at hfuel2; omega)
                  (by rw [restOk]; decide)]
                dsimp only
                rw [skipWs_cons_not (by decide)]
                dsimp only
                rw [if_pos rfl]
              | cons y ys =>
                rw [dumpsElems]
                · simp only [List.cons_append, List.append_assoc]
                  rw [hmem x2 (List.mem_cons_self _ _) g2
                    (',' :: (dumpsElems (y :: ys) ++ ']' :: r2)) hval.1
                    (by omega) (by rw [restOk]; decide)]
                  dsimp only
                  rw [skipWs_cons_not (by decide)]
                  dsimp only
                  rw [if_neg (by decide), if_pos rfl]
                  rw [skipWs_dumpsElems y ys (']' :: r2)]
                  rw [ihx (fun w hw => hmem w (List.mem_cons_of_mem _ hw)) g2
                    r2 hval.2 (by omega) (by simp)]
                · nofun
        obtain ⟨c, t, hct, hcne⟩ := hex
        rw [hct]
        simp only [List.cons_append]
        rw [if_neg hcne]
        rw [← List.cons_append, ← hct]
        rw [hElems (x :: xs) ih f rest hv (by omega) (by simp)]
        rfl
  | hobj ms ih =>
    intro fuel rest hv hfuel hrest
    rw [needed] at hfuel
    rw [Json.valid, Bool.and_eq_true] at hv
    cases fuel with
    | zero => omega
    | succ f =>
      rw [dumps]
      simp only [List.cons_append, List.append_assoc, List.singleton_append,
        List.nil_append]
      rw [parseVal]
      rw [if_pos rfl]
      cases ms with
      | nil =>
        rw [dumpsMembers]
        simp only [List.nil_append]
        rw [skipWs_cons_not (by decide)]
        dsimp only
        rw [if_pos rfl]
      | cons kv kvs =>
        rw [skipWs_dumpsMembers kv kvs ('\x7d' :: rest)]
        have hex : ∃ t, dumpsMembers (kv :: kvs) = '"' :: t := by
          obtain ⟨k, v⟩ := kv
          cases kvs with
          | nil => exact ⟨escapeString k ++ '"' :: ':' :: dumps v,
              by rw [dumpsMembers, List.cons_append]⟩
          | cons kv2 kvs2 =>
            refine ⟨escapeString k ++ '"' :: ':' :: dumps v
              ++ ',' :: dumpsMembers (kv2 :: kvs2), ?_⟩
            rw [dumpsMembers]
            · simp
            · nofun
        have hMembers : ∀ ms2 : List (List Char × Json),
            (∀ kv2 ∈ ms2, ∀ (fuel2 : Nat) (rest2 : List Char),
              Json.valid kv2.2 = true → needed kv2.2 ≤ fuel2 →
              restOk rest2 = true →
              parseVal fuel2 (dumps kv2.2 ++ rest2) = some (kv2.2, rest2)) →
            ∀ (g : Nat) (r2 : List Char), validMembers ms2 = true →
              neededMembers ms2 ≤ g → ms2 ≠ [] →
              parseMembers g (dumpsMembers ms2 ++ '\x7d' :: r2)
                = some (ms2, r2) := by
          intro ms2
          induction ms2 with
          | nil =>
            intro _ g r2 _ _ hne
            exact absurd rfl hne
          | cons kv2 kvs2 ihx =>
            intro hmem g r2 hval hfuel2 _
            obtain ⟨k2, v2⟩ := kv2
            rw [neededMembers] at hfuel2
            rw [validMembers, Bool.and_eq_true] at hval
            cases g with
            | zero => omega
            | succ g2 =>
              cases kvs2 with
              | nil =>
                rw [dumpsMembers]
                simp only [List.cons_append, List.append_assoc,
                  List.singleton_append]
                rw [parseMembers]
                rw [if_pos rfl]
                rw [parseStringBody_escape k2
                  (':' :: (dumps v2 ++ '\x7d' :: r2))]
                dsimp only
                rw [skipWs_cons_not (by decide)]
                dsimp only
                rw [if_pos rfl]
                rw [skipWs_dumps v2 ('\x7d' :: r2)]
                rw [parseMemberValue]
                rw [hmem (k2, v2) (List.mem_cons_self _ _) g2 ('\x7d' :: r2)
                  hval.1 (by rw [neededMembers] at hfuel2; dsimp only; omega)
                  (by rw [restOk]; decide)]
                dsimp only
                rw [skipWs_cons_not (by decide)]
                dsimp only
                rw [if_pos rfl]
              | cons kv3 kvs3 =>
                rw [dumpsMembers]
                · simp only [List.cons_append, List.append_assoc,
                    List.singleton_append]
                  rw [parseMembers]
                  rw [if_pos rfl]
                  rw [parseStringBody_escape k2 (':' :: (dumps v2 ++ ','
                    :: (dumpsMembers (kv3 :: kvs3) ++ '\x7d' :: r2)))]
                  dsimp only
                  rw [skipWs_cons_not (by decide)]
                  dsimp only
                  rw [if_pos rfl]
                  rw [skipWs_dumps v2
                    (',' :: (dumpsMembers (kv3 :: kvs3) ++ '\x7d' :: r2))]
                  rw [parseMemberValue]
                  rw [hmem (k2, v2) (List.mem_cons_self _ _) g2
                    (',' :: (dumpsMembers (kv3 :: kvs3) ++ '\x7d' :: r2))
                    hval.1 (by dsimp only; omega) (by rw [restOk]; decide)]
                  dsimp only
                  rw [skipWs_cons_not (by decide)]
                  dsimp only
                  rw [if_neg (by decide), if_pos rfl]
                  rw [skipWs_dumpsMembers kv3 kvs3 ('\x7d' :: r2)]
                  rw [ihx (fun w hw => hmem w (List.mem_cons_of_mem _ hw)) g2
                    r2 hval.2 (by omega) (by simp)]
                · nofun
        obtain ⟨t, hct⟩ := hex
        rw [hct]
        simp only [List.cons_append]
        rw [if_neg (by decide)]
        rw [← List.cons_append, ← hct]
        rw [hMembers (kv :: kvs) ih f rest hv.2 (by omega) (by simp)]
        simp only [Option.map_some']
        rw [dictOfPairs_id (kv :: kvs) hv.1]

theorem loads_dumps (v : Json) (hv : Json.valid v = true) :
    loads (dumps v) = some v := by
  unfold loads
  have hskip : skipWs (dumps v) = dumps v := by
    have h0 := skipWs_dumps v []
    simpa using h0
  rw [hskip]
  have hp : parseVal ((dumps v).length + 1) (dumps v) = some (v, []) := by
    have h1 := parseVal_dumps v ((dumps v).length + 1) [] hv
      (by have := needed_le v; omega) rfl
    simpa using h1
  dsimp only
  rw [hp]
  dsimp only
  rw [if_pos (show skipWs ([] : List Char) = [] from rfl)]

theorem dropWhile_append_all {p : Char → Bool} (a : List Char)
    (ha : ∀ c ∈ a, p c = true) (b : List Char) :
    (a ++ b).dropWhile p = b.dropWhile p := by
  induction a with
  | nil => rfl
  | cons c t ih =>
    simp only [List.cons_append, List.dropWhile_cons,
      ha c (List.mem_cons_self _ _)]
    exact ih (fun d hd => ha d (List.mem_cons_of_mem _ hd))

theorem readLine_append (xs : List Char) (hnx : ∀ c ∈ xs, ¬c = '\n')
    (rest : List Char) :
    readLine (xs ++ '\n' :: rest) = (xs ++ ['\n'], rest) := by
  induction xs with
  | nil =>
    simp only [List.nil_append]
    rw [readLine, if_pos rfl]
  | cons c t ih =>
    simp only [List.cons_append]
    rw [readLine, if_neg (hnx c (List.mem_cons_self _ _))]
    rw [ih (fun d hd => hnx d (List.mem_cons_of_mem _ hd))]

theorem splitColon_at_colon (a : List Char) (ha : ∀ c ∈ a, ¬c = ':')
    (z : List Char) : splitColon (a ++ ':' :: z) = some (a, z) := by
  induction a with
  | nil =>
    simp only [List.nil_append]
    rw [splitColon, if_pos rfl]
  | cons c t ih =>
    simp only [List.cons_append]
    rw [splitColon, if_neg (ha c (List.mem_cons_self _ _))]
    rw [ih (fun d hd => ha d (List.mem_cons_of_mem _ hd))]
    rfl

theorem isPyWs_false_of_toNat {c : Char}
    (h : c.toNat ≠ 32 ∧ c.toNat ≠ 9 ∧ c.toNat ≠ 10 ∧ c.toNat ≠ 13 ∧
      c.toNat ≠ 11 ∧ c.toNat ≠ 12) :
    isPyWs c = false := by
  simp only [isPyWs, Bool.or_eq_false_iff, decide_eq_false_iff_not]
  refine ⟨⟨⟨⟨⟨?_, ?_⟩, ?_⟩, ?_⟩, ?_⟩, ?_⟩
  · exact char_ne_lit rfl h.1
  · exact char_ne_lit rfl h.2.1
  · exact char_ne_lit rfl h.2.2.1
  · exact char_ne_lit rfl h.2.2.2.1
  · exact char_ne_lit rfl h.2.2.2.2.1
  · exact char_ne_lit rfl h.2.2.2.2.2

theorem pyStrip_trailing_ws (c : Char) (t w : List Char)
    (hc : isPyWs c = false) (hlast : headNot isPyWs (c :: t).reverse)
    (hw : ∀ d ∈ w, isPyWs d = true) :
    pyStrip ((c :: t) ++ w) = c :: t := by
  unfold pyStrip
  simp only [List.cons_append, List.dropWhile_cons, hc]
  simp only [Bool.false_eq_true, if_false]
  have hr : (c :: (t ++ w)).reverse = w.reverse ++ (c :: t).reverse := by
    simp
  rw [hr]
  rw [dropWhile_append_all w.reverse
    (fun d hd => hw d (List.mem_reverse.mp hd)) ((c :: t).reverse)]
  cases hrev : (c :: t).reverse with
  | nil =>
    exact absurd hrev (by simp)
  | cons d dr =>
    rw [hrev] at hlast
    simp only [headNot] at hlast
    rw [List.dropWhile_cons, hlast]
    simp only [Bool.false_eq_true, if_false]
    rw [← hrev, List.reverse_reverse]

theorem pyStrip_cons_ws (c : Char) (l : List Char) (hc : isPyWs c = true) :
    pyStrip (c :: l) = pyStrip l := by
  unfold pyStrip
  rw [List.dropWhile_cons, hc]
  simp

theorem pyStrip_digits (ds : List Char) (hne : ds ≠ [])
    (hdig : ∀ c ∈ ds, 48 ≤ c.toNat ∧ c.toNat ≤ 57) : pyStrip ds = ds := by
  cases hd : ds with
  | nil => exact absurd hd hne
  | cons c t =>
    have hcds : c ∈ ds := by rw [hd]; exact List.mem_cons_self _ _
    have hc : isPyWs c = false := by
      have := hdig c hcds
      exact isPyWs_false_of_toNat (by omega)
    have h2 := pyStrip_trailing_ws c t [] hc ?_ (by intro d hd2; cases hd2)
    · simpa using h2
    · cases hrev : (c :: t).reverse with
      | nil => exact absurd hrev (by simp)
      | cons d dr =>
        simp only [headNot]
        have hdds : d ∈ ds := by
          rw [hd]
          rw [← List.mem_reverse, hrev]
          exact List.mem_cons_self _ _
        have := hdig d hdds
        exact isPyWs_false_of_toNat (by omega)

theorem pyStrip_crlf : pyStrip ['\x0d', '\n'] = [] := by decide

theorem readHeaders_frame (f : Nat) (hs : List (List Char × List Char))
    (ds body : List Char) (hne : ds ≠ [])
    (hdig : ∀ c ∈ ds, 48 ≤ c.toNat ∧ c.toNat ≤ 57) :
    readHeaders (f + 2) hs
        (chars "Content-Length: " ++ ds ++ chars "\r\n\r\n" ++ body)
      = some (updateAssoc hs (chars "Content-Length") ds, body) := by
  have hshape : chars "Content-Length: " ++ ds ++ chars "\r\n\r\n" ++ body
      = ((chars "Content-Length: " ++ ds ++ ['\x0d']) ++
          '\n' :: ('\x0d' :: '\n' :: body)) := by
    simp only [List.append_assoc, List.cons_append, List.singleton_append]
    rfl
  rw [hshape]
  rw [show f + 2 = (f + 1) + 1 from rfl, readHeaders]
  rw [readLine_append (chars "Content-Length: " ++ ds ++ ['\x0d']) ?hnl
    ('\x0d' :: '\n' :: body)]
  case hnl =>
    intro c hc
    rcases List.mem_append.mp hc with hc2 | hc2
    · rcases List.mem_append.mp hc2 with hc3 | hc3
      · exact (by decide : ∀ x ∈ chars "Content-Length: ", ¬x = '\n') c hc3
      · have := hdig c hc3
        exact char_ne_lit (k := 10) rfl (by omega)
    · have hce : c = '\x0d' := List.mem_singleton.mp hc2
      subst hce
      decide
  dsimp only
  have hstrip1 : pyStrip ((chars "Content-Length: " ++ ds ++ ['\x0d'])
      ++ ['\n']) = chars "Content-Length: " ++ ds := by
    have hrw : (chars "Content-Length: " ++ ds ++ ['\x0d']) ++ ['\n']
        = (chars "Content-Length: " ++ ds) ++ ['\x0d', '\n'] := by
      simp
    rw [hrw]
    have hsh : chars "Content-Length: " ++ ds = 'C' :: (chars "ontent-Length: " ++ ds) := rfl
    rw [hsh]
    apply pyStrip_trailing_ws
    · decide
    · cases hrev : ('C' :: (chars "ontent-Length: " ++ ds)).reverse with
      | nil => exact absurd hrev (by simp)
      | cons d dr =>
        simp only [headNot]
        have hdm : d ∈ 'C' :: (chars "ontent-Length: " ++ ds) := by
          rw [← List.mem_reverse, hrev]
          exact List.mem_cons_self _ _
        have hrev2 : ('C' :: (chars "ontent-Length: " ++ ds)).reverse
            = ds.reverse ++ ('C' :: chars "ontent-Length: ").reverse := by
          simp
        rw [hrev2] at hrev
        cases hds : ds.reverse with
        | nil =>
          exact absurd (by simpa using congrArg List.reverse hds) hne
        | cons e er =>
          rw [hds] at hrev
          simp only [List.cons_append, List.cons.injEq] at hrev
          have hem : e ∈ ds := by
            rw [← List.mem_reverse, hds]
            exact List.mem_cons_self _ _
          have := hdig e hem
          rw [← hrev.1]
          exact isPyWs_false_of_toNat (by omega)
    · intro d hd
      rcases List.mem_cons.mp hd with h1 | h1
      · subst h1; decide
      · have h2 : d = '\n' := List.mem_singleton.mp h1
        subst h2; decide
  rw [hstrip1]
  rw [if_neg ?hline]
  case hline =>
    intro hcl
    have hlen := congrArg List.length hcl
    rw [List.length_append] at hlen
    rw [show (chars "Content-Length: ").length = 16 from rfl] at hlen
    simp only [List.length_nil] at hlen
    omega
  have hsplit : splitColon (chars "Content-Length: " ++ ds)
      = some (chars "Content-Length", ' ' :: ds) := by
    have hcast : chars "Content-Length: " ++ ds
        = chars "Content-Length" ++ ':' :: (' ' :: ds) := by
      rfl
    rw [hcast]
    exact splitColon_at_colon (chars "Content-Length") (by decide) (' ' :: ds)
  rw [hsplit]
  dsimp only
  have hkey : pyStrip (chars "Content-Length") = chars "Content-Length" := by
    decide
  have hval : pyStrip (' ' :: ds) = ds := by
    rw [pyStrip_cons_ws ' ' ds (by decide)]
    exact pyStrip_digits ds hne hdig
  rw [hkey, hval]
  rw [readHeaders]
  rw [show readLine ('\x0d' :: '\n' :: body) = (['\x0d', '\n'], body) from by
    rw [readLine, if_neg (by decide), readLine, if_pos rfl]]
  dsimp only
  rw [pyStrip_crlf]
  rw [if_pos rfl]

/-- C2: for every valid message — non-ASCII content included — decoding the
frame produced by encoding it yields the message back, with the stream fully
consumed: `_Read` undoes `_Write`. -/
theorem decode_encode_roundtrip (m : Json) (hv : Json.valid m = true) :
    readFrame (writeFrame m) = some (m, []) := by
  have hne := natChars_ne_nil (dumps m).length
  have hdig := natChars_digit (dumps m).length
  unfold readFrame writeFrame
  have h16 : (chars "Content-Length: ").length = 16 := rfl
  have h4 : (chars "\r\n\r\n").length = 4 := rfl
  have hlen : (chars "Content-Length: " ++ natChars (dumps m).length
      ++ chars "\r\n\r\n" ++ dumps m).length + 1
      = ((chars "Content-Length: " ++ natChars (dumps m).length
          ++ chars "\r\n\r\n" ++ dumps m).length - 1) + 2 := by
    simp only [List.length_append, h16, h4]
    omega
  rw [hlen]
  rw [readHeaders_frame _ [] (natChars (dumps m).length) (dumps m) hne hdig]
  dsimp only
  rw [updateAssoc]
  rw [lookupAssoc, if_pos rfl]
  dsimp only
  have hpi : pyInt (natChars (dumps m).length)
      = some ((dumps m).length : Int) := by
    obtain ⟨c, t, hct, hc1, hc2, _⟩ := natChars_head_digit (dumps m).length
    rw [hct, pyInt]
    rw [if_neg (char_ne_lit (d := '-') (k := 45) rfl (by omega))]
    rw [if_neg (char_ne_lit (d := '+') (k := 43) rfl (by omega))]
    unfold pyIntDigits
    have hall : (c :: t).all isDigitChar = true := by
      rw [← hct]
      exact List.all_eq_true.mpr (fun d hd => by
        have hdd := natChars_digit (dumps m).length d hd
        simp only [isDigitChar, Bool.and_eq_true, decide_eq_true_eq]
        omega)
    rw [if_pos ⟨List.cons_ne_nil _ _, hall⟩]
    rw [← hct, digitsVal_natChars]
    rfl
  rw [hpi]
  dsimp only
  unfold readCount
  rw [if_neg (by omega : ¬((dumps m).length : Int) < 0)]
  dsimp only
  rw [Int.toNat_natCast]
  rw [List.take_length, List.drop_length]
  rw [loads_dumps m hv]

/-- Witness for `decode_encode_roundtrip` on a concrete message holding
two-byte and four-byte UTF-8 characters. -/
theorem decode_encode_roundtrip_witness :
    Json.valid sampleMessage = true ∧
      readFrame (writeFrame sampleMessage) = some (sampleMessage, []) := by
  have hv : Json.valid sampleMessage = true := by
    simp only [sampleMessage, Json.valid, validMembers, validElems,
      Bool.and_eq_true, and_true, true_and]
    exact ⟨by decide, by decide⟩
  exact ⟨hv, decode_encode_roundtrip sampleMessage hv⟩
